import Mathlib

/-!
Verification development for a repository of small event-driven commerce
utilities: a point-in-time credit-balance ledger, five Kinesis stream consumer
handlers, and two Terraform generators.  Each component is shallowly embedded
from its Python source; theorems settle the frozen specification claims.
-/

namespace CreditBalance

/-- A grant record, mirroring the dict stored in `Credits.grants`
(`{"ts": ..., "gid": ..., "amt": ..., "ets": ...}` in `credits.py`). -/
structure Grant where
  ts : Int
  gid : String
  amt : Int
  ets : Int
deriving DecidableEq

/-- The `Credits` object state from `credits.py`.  Python dicts keyed by
timestamp or grant id are modelled as functions with the `.get` defaults used
by the source (`[]` for the id lists, `0` for accumulated debits, absence as
`Option` for `grants`). -/
structure Credits where
  timestamps : List Int
  grants : String → Option Grant
  grants_ts : Int → List String
  exp_ts : Int → List String
  subtracts_ts : Int → Int
  subtractions : List (Int × Int)

/-- The empty ledger built by `Credits.__init__`. -/
def Credits.init : Credits where
  timestamps := []
  grants := fun _ => none
  grants_ts := fun _ => []
  exp_ts := fun _ => []
  subtracts_ts := fun _ => 0
  subtractions := []

/-- `bisect.insort` on a list of ints: insert before the first strictly
greater element (after any equal elements, as `insort_right` does). -/
def insort (x : Int) : List Int → List Int
  | [] => [x]
  | y :: ys => if x < y then x :: y :: ys else y :: insort x ys

/-- `Credits.create_grant`: record the grant, index its creation and
expiration timestamps in the shared timeline and in the per-timestamp id
lists. -/
def create_grant (c : Credits) (timestamp : Int) (grant_id : String)
    (amount : Int) (expiration_timestamp : Int) : Credits where
  timestamps := insort expiration_timestamp (insort timestamp c.timestamps)
  grants := fun g =>
    if g = grant_id then
      some ⟨timestamp, grant_id, amount, expiration_timestamp⟩
    else c.grants g
  grants_ts := fun t =>
    if t = timestamp then c.grants_ts t ++ [grant_id] else c.grants_ts t
  exp_ts := fun t =>
    if t = expiration_timestamp then c.exp_ts t ++ [grant_id] else c.exp_ts t
  subtracts_ts := c.subtracts_ts
  subtractions := c.subtractions

/-- `Credits.subtract`: record a debit; debits at one timestamp accumulate. -/
def subtract (c : Credits) (timestamp : Int) (amount : Int) : Credits where
  timestamps := insort timestamp c.timestamps
  grants := c.grants
  grants_ts := c.grants_ts
  exp_ts := c.exp_ts
  subtracts_ts := fun t =>
    if t = timestamp then c.subtracts_ts t + amount else c.subtracts_ts t
  subtractions := c.subtractions ++ [(timestamp, amount)]

/-- One ledger-building call, so whole histories are first-class values. -/
inductive Op
  | grant (timestamp : Int) (grant_id : String) (amount : Int)
      (expiration_timestamp : Int)
  | debit (timestamp : Int) (amount : Int)
deriving DecidableEq

/-- Run one ledger call. -/
def applyOp (c : Credits) (op : Op) : Credits :=
  match op with
  | .grant t g a e => create_grant c t g a e
  | .debit t a => subtract c t a

/-- Build a `Credits` object by running a history of calls from `__init__`. -/
def applyOps (ops : List Op) : Credits :=
  ops.foldl applyOp Credits.init

/-- The working map `grant_amts` of `get_balance`: an association list from
grant id to remaining amount.  The parallel Python set
`available_expirations` always holds exactly the keys of `grant_amts` (all
three mutation sites in the source update both in lockstep), so one
association list models both. -/
abbrev State := List (String × Int)

/-- Python dict assignment `grant_amts[gid] = v`: replace in place, or append
if absent. -/
def setAmt (g : String) (v : Int) : State → State
  | [] => [(g, v)]
  | (h, w) :: rest => if h = g then (g, v) :: rest else (h, w) :: setAmt g v rest

/-- Python `del grant_amts[gid]` (with the set removal). -/
def eraseKey (g : String) (s : State) : State :=
  s.filter (fun e => e.1 ≠ g)

/-- The expiration timestamp consulted by the sort key
`self.grants[x]["ets"]`; `0` stands for the unreachable missing-grant case. -/
def etsOf (gr : String → Option Grant) (g : String) : Int :=
  match gr g with
  | some r => r.ets
  | none => 0

/-- The order in which `sorted(available_expirations, key=ets)` yields the
grant ids: stable sort by expiration over the set's unspecified iteration
order.  The iteration order is modelled by a priority `p`; equal
(expiration, priority) pairs fall back to the grant-id order so the relation
is a strict total order on distinct ids. -/
def grantLtB (gr : String → Option Grant) (p : String → Nat)
    (g h : String) : Bool :=
  if etsOf gr g < etsOf gr h then true
  else if etsOf gr h < etsOf gr g then false
  else if p g < p h then true
  else if p h < p g then false
  else decide (g < h)

/-- Insertion step of the sort used before debit application. -/
def insertPair (lt : String → String → Bool) (x : String × Int) :
    List (String × Int) → List (String × Int)
  | [] => [x]
  | y :: ys => if lt x.1 y.1 then x :: y :: ys else y :: insertPair lt x ys

/-- Sort the available entries by `(expiration, iteration priority)`. -/
def sortPairs (lt : String → String → Bool) (s : State) : State :=
  s.foldr (insertPair lt) []

/-- The debit loop of `get_balance` over the sorted available grants:
a grant larger than the outstanding amount is reduced and the loop breaks;
otherwise the grant is consumed in full and removed.  Returns the
outstanding remainder and the surviving entries. -/
def consumeList : Int → State → Int × State
  | tr, [] => (tr, [])
  | tr, (g, v) :: rest =>
    if v > tr then (0, (g, v - tr) :: rest)
    else consumeList (tr - v) rest

/-- `for gid in o1`: activate each grant created at this timestamp at its
full granted amount. -/
def activateAll (gr : String → Option Grant) (ids : List String) (s : State) :
    State :=
  ids.foldl
    (fun s g =>
      match gr g with
      | some r => setAmt g r.amt s
      | none => s)
    s

/-- `for gid in o2`: drop each grant expiring at this timestamp, if present. -/
def expireAll (ids : List String) (s : State) : State :=
  ids.foldl (fun s g => if (s.lookup g).isSome then eraseKey g s else s) s

/-- The body of one iteration of the `for ts in self.timestamps` loop of
`get_balance`: activations, then expirations, then the accumulated debit
(`none` models the early `return None` on an unsatisfiable debit). -/
def stepTs (c : Credits) (p : String → Nat) (s : State) (ts : Int) :
    Option State :=
  let s1 := activateAll c.grants (c.grants_ts ts) s
  let s2 := expireAll (c.exp_ts ts) s1
  let o3 := c.subtracts_ts ts
  if o3 > 0 then
    let r := consumeList o3 (sortPairs (grantLtB c.grants p) s2)
    if r.1 > 0 then none else some r.2
  else some s2

/-- Sum of the remaining amounts, `sum(grant_amts.values())`. -/
def sumVals (s : State) : Int :=
  (s.map (·.2)).sum

/-- The replay loop of `get_balance` over a timeline suffix: stop at the
first timestamp beyond the query and return the balance, abort with `none`
on an unsatisfiable debit. -/
def goBalance (c : Credits) (p : String → Nat) (timestamp : Int) :
    State → List Int → Option Int
  | s, [] => some (sumVals s)
  | s, ts :: rest =>
    if ts > timestamp then some (sumVals s)
    else
      match stepTs c p s ts with
      | none => none
      | some s' => goBalance c p timestamp s' rest

/-- `Credits.get_balance`: replay the (duplicate-containing) timeline in
order.  `p` models the unspecified iteration order of the Python set used
for the expiration sort; every behaviour of the source is
`get_balance c p t` for some `p`. -/
def get_balance (c : Credits) (p : String → Nat) (timestamp : Int) :
    Option Int :=
  goBalance c p timestamp [] c.timestamps

/-- Modelled from the spec: the replay that §4.1 of the specification
describes, processing each **distinct** timeline timestamp at most once
("At each distinct timeline timestamp ≤ query time, in order") instead of
once per timeline entry.  Used to exhibit the divergence of the source's
loop on duplicated timestamps. -/
def get_balance_distinct (c : Credits) (p : String → Nat) (timestamp : Int) :
    Option Int :=
  goBalance c p timestamp [] c.timestamps.dedup

/-- History of testable property 3 / claim C4: grant a of 3 at t=10 expiring
at 60, grant b of 2 at t=20 expiring at 40, debit 1 at t=30, debit 3 at
t=50. -/
def ledgerC4 : Credits :=
  applyOps [.grant 10 "a" 3 60, .grant 20 "b" 2 40, .debit 30 1, .debit 50 3]

/-- History of testable property 4 / claim C5, with a free later-grant
expiration `e`: grant a of 3 at t=10 expiring at 60, debit 4 at t=20, grant
b of 10 at t=40 expiring at `e`. -/
def ledgerC5 (e : Int) : Credits :=
  applyOps [.grant 10 "a" 3 60, .debit 20 4, .grant 40 "b" 10 e]

/-- A history in which the timestamp 10 serves two roles (creation of grant
b and a debit), so it occurs twice in the timeline index. -/
def ledgerDup : Credits :=
  applyOps [.grant 5 "a" 3 100, .grant 10 "b" 3 50, .debit 10 4]

/-- A history with a duplicated timestamp and two grants that share one
expiration, making the balance depend on the set-iteration order. -/
def ledgerTie : Credits :=
  applyOps [.grant 5 "g1" 5 100, .grant 10 "g2" 5 100, .debit 10 4]

/-- Set-iteration order that yields g1 before g2 on the tied expiration. -/
def orderG1First : String → Nat := fun s => if s = "g1" then 0 else 1

/-- Set-iteration order that yields g2 before g1 on the tied expiration. -/
def orderG2First : String → Nat := fun s => if s = "g1" then 1 else 0

end CreditBalance

namespace CreditBalance

/-- The grant ids of a working state, in entry order. -/
def keys (s : State) : List String :=
  s.map Prod.fst

/-- Pointwise domination: every entry of `l'` is bounded by an entry of `l`
with the same grant id.  `Dom l' l` is how a replay state can evolve: grant
amounts only survive smaller-or-equal, or disappear. -/
def Dom (l' l : State) : Prop :=
  ∀ e ∈ l', ∃ v, (e.1, v) ∈ l ∧ e.2 ≤ v

theorem Dom.refl (l : State) : Dom l l :=
  fun e he => ⟨e.2, he, le_refl _⟩

theorem Dom.trans {l1 l2 l3 : State} (h12 : Dom l1 l2) (h23 : Dom l2 l3) :
    Dom l1 l3 := by
  intro e he
  obtain ⟨v2, hv2, hle2⟩ := h12 e he
  obtain ⟨v3, hv3, hle3⟩ := h23 (e.1, v2) hv2
  exact ⟨v3, hv3, hle2.trans hle3⟩

theorem lookup_cons (a : String) (b : Int) (rest : State) (g : String) :
    ((a, b) :: rest).lookup g = if g = a then some b else rest.lookup g := by
  by_cases h : g = a
  · simp [List.lookup, h]
  · simp [List.lookup, h, show (g == a) = false by simp [h]]

theorem lookup_eq_none_iff (s : State) (g : String) :
    s.lookup g = none ↔ g ∉ keys s := by
  induction s with
  | nil => simp [keys]
  | cons e rest ih =>
    rcases e with ⟨a, b⟩
    rw [lookup_cons]
    by_cases h : g = a <;> simp [keys, h, ih]

theorem mem_of_lookup_eq_some {s : State} {g : String} {v : Int}
    (h : s.lookup g = some v) : (g, v) ∈ s := by
  induction s with
  | nil => simp [List.lookup] at h
  | cons e rest ih =>
    rcases e with ⟨a, b⟩
    rw [lookup_cons] at h
    by_cases hg : g = a
    · rw [if_pos hg] at h
      injection h with h
      subst hg h
      exact List.mem_cons_self _ _
    · rw [if_neg hg] at h
      exact List.mem_cons.mpr (Or.inr (ih h))

theorem lookup_of_mem {s : State} (hnd : (keys s).Nodup) {g : String}
    {v : Int} (h : (g, v) ∈ s) : s.lookup g = some v := by
  induction s with
  | nil => simp at h
  | cons e rest ih =>
    rcases e with ⟨a, b⟩
    simp only [keys, List.map_cons, List.nodup_cons] at hnd
    rw [lookup_cons]
    rcases List.mem_cons.mp h with heq | hmem
    · injection heq with h1 h2
      subst h1 h2
      simp
    · have hga : g ≠ a := by
        intro hga
        subst hga
        exact hnd.1 (List.mem_map.mpr ⟨(g, v), hmem, rfl⟩)
      rw [if_neg hga]
      exact ih hnd.2 hmem

theorem lookup_eq_some_iff_mem {s : State} (hnd : (keys s).Nodup)
    (g : String) (v : Int) : s.lookup g = some v ↔ (g, v) ∈ s :=
  ⟨mem_of_lookup_eq_some, lookup_of_mem hnd⟩

/-- Domination phrased through lookups, on states with unique grant ids. -/
theorem Dom.lookup {l' l : State} (hd : Dom l' l) (hnd : (keys l).Nodup)
    (g : String) (v' : Int) (h : l'.lookup g = some v') :
    ∃ v, l.lookup g = some v ∧ v' ≤ v := by
  obtain ⟨v, hv, hle⟩ := hd (g, v') (mem_of_lookup_eq_some h)
  exact ⟨v, lookup_of_mem hnd hv, hle⟩

theorem setAmt_cons (g : String) (v : Int) (a : String) (b : Int)
    (rest : State) :
    setAmt g v ((a, b) :: rest) =
      if a = g then (g, v) :: rest else (a, b) :: setAmt g v rest := by
  by_cases h : a = g <;> simp [setAmt, h]

theorem lookup_setAmt (g : String) (v : Int) (s : State) (g' : String) :
    (setAmt g v s).lookup g' = if g' = g then some v else s.lookup g' := by
  induction s with
  | nil =>
    by_cases h : g' = g
    · simp [setAmt, List.lookup, h]
    · simp [setAmt, List.lookup, h, show (g' == g) = false by simp [h]]
  | cons e rest ih =>
    rcases e with ⟨a, b⟩
    rw [setAmt_cons]
    by_cases he : a = g
    · subst he
      rw [if_pos rfl, lookup_cons, lookup_cons]
      by_cases h : g' = a <;> simp [h]
    · rw [if_neg he, lookup_cons, lookup_cons]
      by_cases h : g' = a
      · subst h
        simp [show ¬(g' = g) from fun hh => he hh]
      · simp [h, ih]

theorem mem_keys_setAmt (g : String) (v : Int) (s : State) (g' : String) :
    g' ∈ keys (setAmt g v s) ↔ g' = g ∨ g' ∈ keys s := by
  induction s with
  | nil => simp [setAmt, keys]
  | cons e rest ih =>
    rcases e with ⟨a, b⟩
    rw [setAmt_cons]
    by_cases he : a = g
    · subst he
      simp [keys]
    · simp only [if_neg he, keys, List.map_cons, List.mem_cons]
      simp only [keys] at ih
      rw [ih]
      tauto

theorem nodup_keys_setAmt (g : String) (v : Int) {s : State}
    (hnd : (keys s).Nodup) : (keys (setAmt g v s)).Nodup := by
  induction s with
  | nil => simp [setAmt, keys]
  | cons e rest ih =>
    rcases e with ⟨a, b⟩
    simp only [keys, List.map_cons, List.nodup_cons] at hnd
    rw [setAmt_cons]
    by_cases he : a = g
    · subst he
      rw [if_pos rfl]
      simp only [keys, List.map_cons, List.nodup_cons]
      exact hnd
    · simp only [if_neg he, keys, List.map_cons, List.nodup_cons]
      refine ⟨?_, ih hnd.2⟩
      intro hcon
      rcases (mem_keys_setAmt g v rest a).mp hcon with h | h
      · exact he h
      · exact hnd.1 h

theorem mem_setAmt {g : String} {v : Int} {s : State} {e : String × Int}
    (h : e ∈ setAmt g v s) : e = (g, v) ∨ e ∈ s := by
  induction s with
  | nil => simpa [setAmt] using h
  | cons e0 rest ih =>
    rcases e0 with ⟨a, b⟩
    rw [setAmt_cons] at h
    by_cases he : a = g
    · rw [if_pos he] at h
      rcases List.mem_cons.mp h with h' | h'
      · exact Or.inl h'
      · exact Or.inr (List.mem_cons.mpr (Or.inr h'))
    · rw [if_neg he] at h
      rcases List.mem_cons.mp h with h' | h'
      · exact Or.inr (List.mem_cons.mpr (Or.inl h'))
      · rcases ih h' with h'' | h''
        · exact Or.inl h''
        · exact Or.inr (List.mem_cons.mpr (Or.inr h''))

theorem eraseKey_cons (g : String) (a : String) (b : Int) (rest : State) :
    eraseKey g ((a, b) :: rest) =
      if a = g then eraseKey g rest else (a, b) :: eraseKey g rest := by
  by_cases h : a = g <;> simp [eraseKey, List.filter, h]

theorem lookup_eraseKey (g : String) (s : State) (g' : String) :
    (eraseKey g s).lookup g' = if g' = g then none else s.lookup g' := by
  induction s with
  | nil => by_cases h : g' = g <;> simp [eraseKey, List.lookup, h]
  | cons e rest ih =>
    rcases e with ⟨a, b⟩
    rw [eraseKey_cons]
    by_cases he : a = g
    · subst he
      rw [if_pos rfl, lookup_cons, ih]
      by_cases h : g' = a <;> simp [h]
    · rw [if_neg he, lookup_cons, lookup_cons, ih]
      by_cases h : g' = a
      · subst h
        simp [show ¬(g' = g) from fun hh => he hh]
      · simp [h]

theorem mem_eraseKey {g : String} {s : State} {e : String × Int}
    (h : e ∈ eraseKey g s) : e ∈ s :=
  List.mem_of_mem_filter h

theorem mem_keys_eraseKey (g : String) (s : State) (g' : String) :
    g' ∈ keys (eraseKey g s) ↔ g' ≠ g ∧ g' ∈ keys s := by
  induction s with
  | nil => simp [eraseKey, keys]
  | cons e rest ih =>
    rcases e with ⟨a, b⟩
    rw [eraseKey_cons]
    by_cases he : a = g
    · subst he
      rw [if_pos rfl, ih]
      simp only [keys, List.map_cons, List.mem_cons]
      constructor
      · rintro ⟨h1, h2⟩; exact ⟨h1, Or.inr h2⟩
      · rintro ⟨h1, h2 | h2⟩
        · exact absurd h2 h1
        · exact ⟨h1, h2⟩
    · rw [if_neg he]
      simp only [keys, List.map_cons, List.mem_cons]
      simp only [keys] at ih
      rw [ih]
      constructor
      · rintro (h | ⟨h1, h2⟩)
        · subst h
          exact ⟨fun hh => he hh, Or.inl rfl⟩
        · exact ⟨h1, Or.inr h2⟩
      · rintro ⟨h1, h2 | h2⟩
        · exact Or.inl h2
        · exact Or.inr ⟨h1, h2⟩

theorem nodup_keys_eraseKey (g : String) {s : State}
    (hnd : (keys s).Nodup) : (keys (eraseKey g s)).Nodup := by
  induction s with
  | nil => simp [eraseKey, keys]
  | cons e rest ih =>
    rcases e with ⟨a, b⟩
    simp only [keys, List.map_cons, List.nodup_cons] at hnd
    rw [eraseKey_cons]
    by_cases he : a = g
    · rw [if_pos he]
      exact ih hnd.2
    · rw [if_neg he]
      simp only [keys, List.map_cons, List.nodup_cons]
      refine ⟨?_, ih hnd.2⟩
      intro hcon
      exact hnd.1 ((mem_keys_eraseKey g rest a).mp hcon).2

/-- With unique grant ids, a grant id determines its amount in a state. -/
theorem mem_value_unique {s : State} (hnd : (keys s).Nodup) {g : String}
    {a b : Int} (ha : (g, a) ∈ s) (hb : (g, b) ∈ s) : a = b := by
  have h1 := lookup_of_mem hnd ha
  have h2 := lookup_of_mem hnd hb
  rw [h1] at h2
  injection h2

/-- `grantLtB` as a proposition: lexicographic on expiration, iteration
priority, and finally grant id. -/
theorem grantLtB_iff (gr : String → Option Grant) (p : String → Nat)
    (g h : String) :
    grantLtB gr p g h = true ↔
      (etsOf gr g < etsOf gr h ∨ (etsOf gr g = etsOf gr h ∧
        (p g < p h ∨ (p g = p h ∧ g < h)))) := by
  unfold grantLtB
  split_ifs with h1 h2 h3 h4
  · simp [h1]
  · simp only [Bool.false_eq_true, false_iff]
    rintro (hlt | ⟨heq, -⟩)
    · exact h1 hlt
    · omega
  · simp only [true_iff]
    exact Or.inr ⟨by omega, Or.inl h3⟩
  · simp only [Bool.false_eq_true, false_iff]
    rintro (hlt | ⟨heq, hp | ⟨hpe, -⟩⟩)
    · exact h1 hlt
    · exact h3 hp
    · omega
  · rw [decide_eq_true_eq]
    constructor
    · intro hlt
      exact Or.inr ⟨by omega, Or.inr ⟨by omega, hlt⟩⟩
    · rintro (hlt | ⟨heq, hp | ⟨hpe, hstr⟩⟩)
      · exact absurd hlt h1
      · exact absurd hp h3
      · exact hstr

theorem grantLtB_asymm {gr : String → Option Grant} {p : String → Nat}
    {g h : String} (hgh : grantLtB gr p g h = true) :
    ¬ grantLtB gr p h g = true := by
  rw [grantLtB_iff] at hgh ⊢
  rintro (hlt | ⟨heq, hp | ⟨hpe, hstr⟩⟩) <;>
    rcases hgh with hlt' | ⟨heq', hp' | ⟨hpe', hstr'⟩⟩ <;>
      first
        | omega
        | exact absurd hstr (lt_asymm hstr')

theorem grantLtB_total (gr : String → Option Grant) (p : String → Nat)
    {g h : String} (hne : g ≠ h) :
    grantLtB gr p g h = true ∨ grantLtB gr p h g = true := by
  rw [grantLtB_iff, grantLtB_iff]
  rcases lt_trichotomy (etsOf gr g) (etsOf gr h) with he | he | he
  · exact Or.inl (Or.inl he)
  · rcases lt_trichotomy (p g) (p h) with hp | hp | hp
    · exact Or.inl (Or.inr ⟨he, Or.inl hp⟩)
    · rcases lt_or_gt_of_ne hne with hs | hs
      · exact Or.inl (Or.inr ⟨he, Or.inr ⟨hp, hs⟩⟩)
      · exact Or.inr (Or.inr ⟨he.symm, Or.inr ⟨hp.symm, hs⟩⟩)
    · exact Or.inr (Or.inr ⟨he.symm, Or.inl hp⟩)
  · exact Or.inr (Or.inl he)

/-- A state listed in strictly increasing consumption order. -/
def PairSorted (lt : String → String → Bool) (l : State) : Prop :=
  l.Pairwise (fun a b => lt a.1 b.1 = true)

theorem insertPair_perm (lt : String → String → Bool) (x : String × Int) :
    ∀ l : State, (insertPair lt x l).Perm (x :: l) := by
  intro l
  induction l with
  | nil => simp [insertPair]
  | cons y ys ih =>
    by_cases h : lt x.1 y.1
    · simp [insertPair, h]
    · simp only [insertPair, if_neg h]
      exact (ih.cons y).trans (List.Perm.swap x y ys)

theorem sortPairs_perm (lt : String → String → Bool) (s : State) :
    (sortPairs lt s).Perm s := by
  induction s with
  | nil => simp [sortPairs]
  | cons e rest ih =>
    exact ((insertPair_perm lt e (sortPairs lt rest)).trans (ih.cons e))

theorem keys_perm_of_perm {l l' : State} (h : l.Perm l') :
    (keys l).Perm (keys l') :=
  h.map Prod.fst

theorem nodup_keys_sortPairs (lt : String → String → Bool) {s : State}
    (hnd : (keys s).Nodup) : (keys (sortPairs lt s)).Nodup :=
  (keys_perm_of_perm (sortPairs_perm lt s)).nodup_iff.mpr hnd

theorem lookup_sortPairs (lt : String → String → Bool) {s : State}
    (hnd : (keys s).Nodup) (g : String) :
    (sortPairs lt s).lookup g = s.lookup g := by
  have hperm := sortPairs_perm lt s
  have hnd' : (keys (sortPairs lt s)).Nodup :=
    nodup_keys_sortPairs lt hnd
  rcases hv : s.lookup g with _ | v
  · rw [lookup_eq_none_iff] at hv ⊢
    intro hcon
    exact hv ((keys_perm_of_perm hperm).mem_iff.mp hcon)
  · exact lookup_of_mem hnd' (hperm.mem_iff.mpr (mem_of_lookup_eq_some hv))

theorem insertPair_sorted {lt : String → String → Bool}
    (htrans : ∀ a b c : String,
      lt a b = true → lt b c = true → lt a c = true)
    (htotal : ∀ a b : String, a ≠ b → lt a b = true ∨ lt b a = true)
    (x : String × Int) :
    ∀ l : State, PairSorted lt l → x.1 ∉ keys l →
      PairSorted lt (insertPair lt x l) := by
  intro l
  induction l with
  | nil => intro _ _; simp [insertPair, PairSorted]
  | cons y ys ih =>
    intro hsorted hx
    simp only [keys, List.map_cons, List.mem_cons] at hx
    push_neg at hx
    rcases List.pairwise_cons.mp hsorted with ⟨hy, hys⟩
    by_cases h : lt x.1 y.1
    · simp only [insertPair, if_pos h]
      refine List.pairwise_cons.mpr ⟨?_, hsorted⟩
      intro z hz
      rcases List.mem_cons.mp hz with hz | hz
      · subst hz; exact h
      · exact htrans _ _ _ h (hy z hz)
    · simp only [insertPair, if_neg h]
      refine List.pairwise_cons.mpr ⟨?_, ih hys hx.2⟩
      intro z hz
      have hz' := (insertPair_perm lt x ys).mem_iff.mp hz
      rcases List.mem_cons.mp hz' with hz' | hz'
      · subst hz'
        rcases htotal _ _ hx.1 with hxy | hyx
        · exact absurd hxy h
        · exact hyx
      · exact hy z hz'

theorem sortPairs_sorted {lt : String → String → Bool}
    (htrans : ∀ a b c : String,
      lt a b = true → lt b c = true → lt a c = true)
    (htotal : ∀ a b : String, a ≠ b → lt a b = true ∨ lt b a = true)
    {s : State} (hnd : (keys s).Nodup) :
    PairSorted lt (sortPairs lt s) := by
  induction s with
  | nil => simp [sortPairs, PairSorted]
  | cons e rest ih =>
    simp only [keys, List.map_cons, List.nodup_cons] at hnd
    refine insertPair_sorted htrans htotal e (sortPairs lt rest)
      (ih hnd.2) ?_
    intro hcon
    exact hnd.1
      ((keys_perm_of_perm (sortPairs_perm lt rest)).mem_iff.mp hcon)

theorem grantLtB_trans (gr : String → Option Grant) (p : String → Nat) :
    ∀ a b c : String, grantLtB gr p a b = true → grantLtB gr p b c = true →
      grantLtB gr p a c = true := by
  intro a b c hab hbc
  rw [grantLtB_iff] at hab hbc ⊢
  rcases hab with h1 | ⟨he1, hp1 | ⟨hq1, hs1⟩⟩ <;>
    rcases hbc with h2 | ⟨he2, hp2 | ⟨hq2, hs2⟩⟩ <;>
      first
      | (left; omega)
      | (right; exact ⟨by omega, Or.inl (by omega)⟩)
      | (right; exact ⟨by omega, Or.inr ⟨by omega, lt_trans hs1 hs2⟩⟩)

theorem consume_fst_nonneg :
    ∀ (l : State) (tr : Int), 0 ≤ tr → 0 ≤ (consumeList tr l).1 := by
  intro l
  induction l with
  | nil => intro tr h; simpa [consumeList] using h
  | cons e rest ih =>
    rcases e with ⟨g, v⟩
    intro tr h
    by_cases hb : v > tr
    · simp [consumeList, hb]
    · simp only [consumeList, if_neg hb]
      exact ih (tr - v) (by omega)

/-- The debit loop only lowers or drops amounts, never raises them. -/
theorem consume_dom :
    ∀ (l : State) (tr : Int), 0 ≤ tr → Dom (consumeList tr l).2 l := by
  intro l
  induction l with
  | nil => intro tr h e he; simp [consumeList] at he
  | cons e0 rest ih =>
    rcases e0 with ⟨g, v⟩
    intro tr h e he
    by_cases hb : v > tr
    · simp only [consumeList, if_pos hb] at he
      rcases List.mem_cons.mp he with he' | he'
      · subst he'
        exact ⟨v, List.mem_cons_self _ _, by omega⟩
      · exact ⟨e.2, List.mem_cons.mpr (Or.inr he'), le_refl _⟩
    · simp only [consumeList, if_neg hb] at he
      obtain ⟨w, hw, hle⟩ := ih (tr - v) (by omega) e he
      exact ⟨w, List.mem_cons.mpr (Or.inr hw), hle⟩

theorem consume_keys_sublist :
    ∀ (l : State) (tr : Int), List.Sublist (keys (consumeList tr l).2) (keys l) := by
  intro l
  induction l with
  | nil => intro tr; simp [consumeList]
  | cons e0 rest ih =>
    rcases e0 with ⟨g, v⟩
    intro tr
    by_cases hb : v > tr
    · simp [consumeList, hb, keys]
    · simp only [consumeList, if_neg hb]
      exact (ih (tr - v)).trans (List.sublist_cons_self _ _)

theorem consume_pos :
    ∀ (l : State) (tr : Int), 0 ≤ tr → (∀ e ∈ l, 0 < e.2) →
      ∀ e ∈ (consumeList tr l).2, 0 < e.2 := by
  intro l
  induction l with
  | nil => intro tr _ _ e he; simp [consumeList] at he
  | cons e0 rest ih =>
    rcases e0 with ⟨g, v⟩
    intro tr h hpos e he
    by_cases hb : v > tr
    · simp only [consumeList, if_pos hb] at he
      rcases List.mem_cons.mp he with he' | he'
      · subst he'; simp; omega
      · exact hpos e (List.mem_cons.mpr (Or.inr he'))
    · simp only [consumeList, if_neg hb] at he
      exact ih (tr - v) (by omega)
        (fun x hx => hpos x (List.mem_cons.mpr (Or.inr hx))) e he

theorem consume_sorted {lt : String → String → Bool} :
    ∀ (l : State) (tr : Int), PairSorted lt l →
      PairSorted lt (consumeList tr l).2 := by
  intro l
  induction l with
  | nil => intro tr h; simpa [consumeList] using h
  | cons e0 rest ih =>
    rcases e0 with ⟨g, v⟩
    intro tr h
    rcases List.pairwise_cons.mp h with ⟨hg, hrest⟩
    by_cases hb : v > tr
    · simp only [consumeList, if_pos hb]
      exact List.pairwise_cons.mpr ⟨fun z hz => hg z hz, hrest⟩
    · simp only [consumeList, if_neg hb]
      exact ih (tr - v) hrest

/-- The central comparison lemma: if state `l2` is pointwise dominated by
state `l1` (same strict consumption order, unique ids, nonnegative amounts)
and at least as much debit is applied to it, the result of its debit loop is
still pointwise dominated by the result of `l1`'s. -/
theorem consume_mono {lt : String → String → Bool}
    (hasymm : ∀ a b : String, lt a b = true → ¬ lt b a = true) :
    ∀ (l1 l2 : State) (tr1 tr2 : Int),
      0 ≤ tr1 → tr1 ≤ tr2 →
      PairSorted lt l1 → PairSorted lt l2 →
      (keys l1).Nodup → (keys l2).Nodup →
      (∀ e ∈ l1, 0 ≤ e.2) →
      Dom l2 l1 →
      Dom (consumeList tr2 l2).2 (consumeList tr1 l1).2 := by
  intro l1
  induction l1 with
  | nil =>
    intro l2 tr1 tr2 h0 h12 hs1 hs2 hn1 hn2 hpos hdom
    have hl2 : l2 = [] := by
      cases l2 with
      | nil => rfl
      | cons e r =>
        obtain ⟨v, hv, -⟩ := hdom e (List.mem_cons_self _ _)
        simp at hv
    subst hl2
    intro e he
    simp [consumeList] at he
  | cons e1 r1 ih =>
    rcases e1 with ⟨h1, v1⟩
    intro l2 tr1 tr2 h0 h12 hs1 hs2 hn1 hn2 hpos hdom
    have hv1nn : 0 ≤ v1 := hpos (h1, v1) (List.mem_cons_self _ _)
    have hs1' := (List.pairwise_cons.mp hs1).2
    have hs1h := (List.pairwise_cons.mp hs1).1
    have hn1' : (keys r1).Nodup := by
      simpa [keys, List.nodup_cons] using hn1.of_cons
    have hn1h : h1 ∉ keys r1 := by
      have := hn1
      simp only [keys, List.map_cons, List.nodup_cons] at this
      exact this.1
    have hpos' : ∀ e ∈ r1, 0 ≤ e.2 :=
      fun e he => hpos e (List.mem_cons.mpr (Or.inr he))
    cases l2 with
    | nil =>
      intro e he
      simp [consumeList] at he
    | cons e2 r2 =>
      rcases e2 with ⟨h2, v2⟩
      have hs2' := (List.pairwise_cons.mp hs2).2
      have hs2h := (List.pairwise_cons.mp hs2).1
      have hn2' : (keys r2).Nodup := by
        simpa [keys, List.nodup_cons] using hn2.of_cons
      have hn2h : h2 ∉ keys r2 := by
        have := hn2
        simp only [keys, List.map_cons, List.nodup_cons] at this
        exact this.1
      by_cases hkey : h2 = h1
      · subst hkey
        have hv21 : v2 ≤ v1 := by
          obtain ⟨w, hw, hle⟩ := hdom (h2, v2) (List.mem_cons_self _ _)
          have hw1 : w = v1 :=
            mem_value_unique hn1 hw (List.mem_cons_self _ _)
          omega
        have hdomtail : Dom r2 r1 := by
          intro e he
          obtain ⟨w, hw, hle⟩ := hdom e (List.mem_cons.mpr (Or.inr he))
          have hne : e.1 ≠ h2 := by
            intro hc
            exact hn2h (hc ▸ List.mem_map.mpr ⟨e, he, rfl⟩)
          rcases List.mem_cons.mp hw with hw' | hw'
          · exact absurd (congrArg Prod.fst hw') hne
          · exact ⟨w, hw', hle⟩
        by_cases hb1 : v1 > tr1
        · by_cases hb2 : v2 > tr2
          · simp only [consumeList, if_pos hb1, if_pos hb2]
            intro e he
            rcases List.mem_cons.mp he with he' | he'
            · subst he'
              exact ⟨v1 - tr1, List.mem_cons_self _ _, by omega⟩
            · obtain ⟨w, hw, hle⟩ := hdomtail e he'
              exact ⟨w, List.mem_cons.mpr (Or.inr hw), hle⟩
          · simp only [consumeList, if_pos hb1, if_neg hb2]
            have hd1 : Dom (consumeList (tr2 - v2) r2).2 r2 :=
              consume_dom r2 (tr2 - v2) (by omega)
            refine (hd1.trans hdomtail).trans ?_
            intro e he
            exact ⟨e.2, List.mem_cons.mpr (Or.inr he), le_refl _⟩
        · have hb2 : ¬ v2 > tr2 := by omega
          simp only [consumeList, if_neg hb1, if_neg hb2]
          exact ih r2 (tr1 - v1) (tr2 - v2) (by omega) (by omega)
            hs1' hs2' hn1' hn2' hpos' hdomtail
      · have hh2r1 : ∃ w, (h2, w) ∈ r1 := by
          obtain ⟨w, hw, -⟩ := hdom (h2, v2) (List.mem_cons_self _ _)
          rcases List.mem_cons.mp hw with hw' | hw'
          · exact absurd (congrArg Prod.fst hw') hkey
          · exact ⟨w, hw'⟩
        obtain ⟨w2, hw2⟩ := hh2r1
        have hlt12 : lt h1 h2 = true := hs1h (h2, w2) hw2
        have hh1l2 : h1 ∉ keys ((h2, v2) :: r2) := by
          simp only [keys, List.map_cons, List.mem_cons]
          rintro (hc | hc)
          · exact hkey hc.symm
          · obtain ⟨e, he, he1⟩ := List.mem_map.mp hc
            exact hasymm _ _ hlt12 (he1 ▸ hs2h e he)
        have hdoml2r1 : Dom ((h2, v2) :: r2) r1 := by
          intro e he
          obtain ⟨w, hw, hle⟩ := hdom e he
          rcases List.mem_cons.mp hw with hw' | hw'
          · exfalso
            apply hh1l2
            have : e.1 = h1 := congrArg Prod.fst hw'
            exact this ▸ List.mem_map.mpr ⟨e, he, rfl⟩
          · exact ⟨w, hw', hle⟩
        by_cases hb1 : v1 > tr1
        · simp only [consumeList, if_pos hb1]
          have hd2 : Dom (consumeList tr2 ((h2, v2) :: r2)).2
              ((h2, v2) :: r2) :=
            consume_dom _ tr2 (by omega)
          refine (hd2.trans hdoml2r1).trans ?_
          intro e he
          exact ⟨e.2, List.mem_cons.mpr (Or.inr he), le_refl _⟩
        · simp only [consumeList, if_neg hb1]
          exact ih ((h2, v2) :: r2) (tr1 - v1) tr2 (by omega) (by omega)
            hs1' hs2 hn1' hn2 hpos' hdoml2r1

theorem lookup_activateAll (gr : String → Option Grant) :
    ∀ (ids : List String) (s : State) (g : String),
      (activateAll gr ids s).lookup g =
        match gr g with
        | some r => if g ∈ ids then some r.amt else s.lookup g
        | none => s.lookup g := by
  intro ids
  induction ids with
  | nil =>
    intro s g
    cases gr g <;> simp [activateAll]
  | cons i ids ih =>
    intro s g
    have hstep : activateAll gr (i :: ids) s =
        activateAll gr ids
          (match gr i with
           | some r => setAmt i r.amt s
           | none => s) := by
      simp only [activateAll, List.foldl_cons]
    rw [hstep, ih]
    rcases hg : gr g with _ | r
    · rcases hi : gr i with _ | ri
      · rfl
      · rw [lookup_setAmt]
        have : ¬ g = i := fun hc => by rw [hc, hi] at hg; cases hg
        rw [if_neg this]
    · by_cases hgi : g = i
      · subst hgi
        rw [hg]
        simp only [List.mem_cons, true_or, if_pos]
        by_cases hmem : g ∈ ids
        · simp [hmem]
        · simp [hmem, lookup_setAmt]
      · rcases hi : gr i with _ | ri
        · simp [List.mem_cons, hgi]
        · rw [lookup_setAmt, if_neg hgi]
          simp [List.mem_cons, hgi]

theorem nodup_keys_activateAll (gr : String → Option Grant) :
    ∀ (ids : List String) (s : State), (keys s).Nodup →
      (keys (activateAll gr ids s)).Nodup := by
  intro ids
  induction ids with
  | nil => intro s h; simpa [activateAll] using h
  | cons i ids ih =>
    intro s h
    have hstep : activateAll gr (i :: ids) s =
        activateAll gr ids
          (match gr i with
           | some r => setAmt i r.amt s
           | none => s) := by
      simp only [activateAll, List.foldl_cons]
    rw [hstep]
    rcases gr i with _ | ri
    · exact ih s h
    · exact ih _ (nodup_keys_setAmt i ri.amt h)

theorem mem_activateAll (gr : String → Option Grant) :
    ∀ (ids : List String) (s : State) (e : String × Int),
      e ∈ activateAll gr ids s →
        (∃ r, gr e.1 = some r ∧ e.2 = r.amt) ∨ e ∈ s := by
  intro ids
  induction ids with
  | nil => intro s e he; exact Or.inr (by simpa [activateAll] using he)
  | cons i ids ih =>
    intro s e he
    have hstep : activateAll gr (i :: ids) s =
        activateAll gr ids
          (match gr i with
           | some r => setAmt i r.amt s
           | none => s) := by
      simp only [activateAll, List.foldl_cons]
    rw [hstep] at he
    rcases hi : gr i with _ | ri
    · rw [hi] at he
      exact ih s e he
    · rw [hi] at he
      rcases ih _ e he with h | h
      · exact Or.inl h
      · rcases mem_setAmt h with h' | h'
        · subst h'
          exact Or.inl ⟨ri, hi, rfl⟩
        · exact Or.inr h'

theorem lookup_expireAll :
    ∀ (ids : List String) (s : State) (g : String),
      (expireAll ids s).lookup g =
        if g ∈ ids then none else s.lookup g := by
  intro ids
  induction ids with
  | nil => intro s g; simp [expireAll]
  | cons i ids ih =>
    intro s g
    have hstep : expireAll (i :: ids) s =
        expireAll ids (if (s.lookup i).isSome then eraseKey i s else s) := by
      simp only [expireAll, List.foldl_cons]
    rw [hstep, ih]
    by_cases hmem : g ∈ ids
    · simp [hmem]
    · simp only [hmem, if_false, List.mem_cons]
      by_cases hgi : g = i
      · subst hgi
        simp only [true_or, if_pos]
        rcases hl : s.lookup g with _ | v
        · simp [hl]
        · simp [hl, lookup_eraseKey]
      · simp only [or_false]
        rw [if_neg hgi]
        by_cases hsome : (s.lookup i).isSome
        · simp [hsome, lookup_eraseKey, hgi]
        · simp [hsome]

theorem nodup_keys_expireAll :
    ∀ (ids : List String) (s : State), (keys s).Nodup →
      (keys (expireAll ids s)).Nodup := by
  intro ids
  induction ids with
  | nil => intro s h; simpa [expireAll] using h
  | cons i ids ih =>
    intro s h
    have hstep : expireAll (i :: ids) s =
        expireAll ids (if (s.lookup i).isSome then eraseKey i s else s) := by
      simp only [expireAll, List.foldl_cons]
    rw [hstep]
    by_cases hsome : (s.lookup i).isSome
    · simp only [hsome, if_true]
      exact ih _ (nodup_keys_eraseKey i h)
    · simp only [hsome, if_false]
      exact ih s h

theorem mem_expireAll :
    ∀ (ids : List String) (s : State) (e : String × Int),
      e ∈ expireAll ids s → e ∈ s := by
  intro ids
  induction ids with
  | nil => intro s e he; simpa [expireAll] using he
  | cons i ids ih =>
    intro s e he
    have hstep : expireAll (i :: ids) s =
        expireAll ids (if (s.lookup i).isSome then eraseKey i s else s) := by
      simp only [expireAll, List.foldl_cons]
    rw [hstep] at he
    by_cases hsome : (s.lookup i).isSome
    · rw [if_pos hsome] at he
      exact mem_eraseKey (ih _ e he)
    · rw [if_neg hsome] at he
      exact ih s e he

/-- The state after the activation (`o1`) and expiration (`o2`) passes of
one replay iteration, before the debit. -/
def postOneTwo (c : Credits) (ts : Int) (s : State) : State :=
  expireAll (c.exp_ts ts) (activateAll c.grants (c.grants_ts ts) s)

/-- A replay state is good when its grant ids are unique, its remaining
amounts are positive, and each remaining amount is bounded by the recorded
granted amount. -/
def Good (c : Credits) (s : State) : Prop :=
  (keys s).Nodup ∧ (∀ e ∈ s, 0 < e.2) ∧
    (∀ e ∈ s, ∃ r, c.grants e.1 = some r ∧ e.2 ≤ r.amt)

theorem lookup_postOneTwo (c : Credits) (ts : Int) (s : State) (g : String) :
    (postOneTwo c ts s).lookup g =
      if g ∈ c.exp_ts ts then none
      else
        match c.grants g with
        | some r => if g ∈ c.grants_ts ts then some r.amt else s.lookup g
        | none => s.lookup g := by
  unfold postOneTwo
  rw [lookup_expireAll]
  by_cases he : g ∈ c.exp_ts ts
  · rw [if_pos he, if_pos he]
  · rw [if_neg he, if_neg he, lookup_activateAll]

theorem lookup_postOneTwo_some {c : Credits} {g : String} {r : Grant}
    (hgr : c.grants g = some r) (ts : Int) (s : State) :
    (postOneTwo c ts s).lookup g =
      if g ∈ c.exp_ts ts then none
      else if g ∈ c.grants_ts ts then some r.amt else s.lookup g := by
  rw [lookup_postOneTwo, hgr]

theorem lookup_postOneTwo_none {c : Credits} {g : String}
    (hgr : c.grants g = none) (ts : Int) (s : State) :
    (postOneTwo c ts s).lookup g =
      if g ∈ c.exp_ts ts then none else s.lookup g := by
  rw [lookup_postOneTwo, hgr]

theorem nodup_keys_postOneTwo (c : Credits) (ts : Int) {s : State}
    (hnd : (keys s).Nodup) : (keys (postOneTwo c ts s)).Nodup :=
  nodup_keys_expireAll _ _ (nodup_keys_activateAll _ _ _ hnd)

theorem postOneTwo_pos (c : Credits) (ts : Int) {s : State}
    (hGr : ∀ g r, c.grants g = some r → 0 < r.amt)
    (hpos : ∀ e ∈ s, 0 < e.2) :
    ∀ e ∈ postOneTwo c ts s, 0 < e.2 := by
  intro e he
  rcases mem_activateAll c.grants _ _ e (mem_expireAll _ _ e he) with
    ⟨r, hr, hamt⟩ | hmem
  · rw [hamt]
    exact hGr e.1 r hr
  · exact hpos e hmem

theorem postOneTwo_bound (c : Credits) (ts : Int) {s : State}
    (hbd : ∀ e ∈ s, ∃ r, c.grants e.1 = some r ∧ e.2 ≤ r.amt) :
    ∀ e ∈ postOneTwo c ts s, ∃ r, c.grants e.1 = some r ∧ e.2 ≤ r.amt := by
  intro e he
  rcases mem_activateAll c.grants _ _ e (mem_expireAll _ _ e he) with
    ⟨r, hr, hamt⟩ | hmem
  · exact ⟨r, hr, le_of_eq hamt⟩
  · exact hbd e hmem

/-- The two ways one replay iteration can return a state: no positive debit
at this timestamp, or the debit loop ran and was satisfied. -/
theorem stepTs_some_cases {c : Credits} {p : String → Nat} {s : State}
    {ts : Int} {s' : State} (h : stepTs c p s ts = some s') :
    (¬ c.subtracts_ts ts > 0 ∧ s' = postOneTwo c ts s) ∨
    (c.subtracts_ts ts > 0 ∧
      s' = (consumeList (c.subtracts_ts ts)
        (sortPairs (grantLtB c.grants p) (postOneTwo c ts s))).2) := by
  have h' : (if c.subtracts_ts ts > 0 then
      (if (consumeList (c.subtracts_ts ts)
            (sortPairs (grantLtB c.grants p) (postOneTwo c ts s))).1 > 0
        then none
        else some (consumeList (c.subtracts_ts ts)
          (sortPairs (grantLtB c.grants p) (postOneTwo c ts s))).2)
      else some (postOneTwo c ts s)) = some s' := h
  by_cases h1 : c.subtracts_ts ts > 0
  · rw [if_pos h1] at h'
    by_cases h2 : (consumeList (c.subtracts_ts ts)
        (sortPairs (grantLtB c.grants p) (postOneTwo c ts s))).1 > 0
    · rw [if_pos h2] at h'
      cases h'
    · rw [if_neg h2] at h'
      exact Or.inr ⟨h1, (Option.some.inj h').symm⟩
  · rw [if_neg h1] at h'
    exact Or.inl ⟨h1, (Option.some.inj h').symm⟩

theorem step_good {c : Credits} {p : String → Nat} {s : State} {ts : Int}
    {s' : State} (hGr : ∀ g r, c.grants g = some r → 0 < r.amt)
    (hg : Good c s) (h : stepTs c p s ts = some s') : Good c s' := by
  obtain ⟨hnd, hpos, hbd⟩ := hg
  have hndp : (keys (postOneTwo c ts s)).Nodup := nodup_keys_postOneTwo c ts hnd
  have hposp := postOneTwo_pos c ts hGr hpos
  have hbdp := postOneTwo_bound c ts hbd
  rcases stepTs_some_cases h with ⟨-, rfl⟩ | ⟨ho3, rfl⟩
  · exact ⟨hndp, hposp, hbdp⟩
  · set lt := grantLtB c.grants p
    have hperm := sortPairs_perm lt (postOneTwo c ts s)
    have hnds : (keys (sortPairs lt (postOneTwo c ts s))).Nodup :=
      nodup_keys_sortPairs lt hndp
    have hposs : ∀ e ∈ sortPairs lt (postOneTwo c ts s), 0 < e.2 :=
      fun e he => hposp e (hperm.mem_iff.mp he)
    refine ⟨?_, ?_, ?_⟩
    · exact (consume_keys_sublist _ _).nodup hnds
    · exact consume_pos _ _ (by omega) hposs
    · intro e he
      obtain ⟨w, hw, hle⟩ := consume_dom _ _ (by omega : (0:Int) ≤ _) e he
      obtain ⟨r, hr, hbr⟩ := hbdp (e.1, w) (hperm.mem_iff.mp hw)
      exact ⟨r, hr, le_trans hle hbr⟩

/-- Whatever survives one replay iteration is bounded by its value right
after the activation/expiration passes. -/
theorem step_lookup_bound {c : Credits} {p : String → Nat} {s : State}
    {ts : Int} {s' : State} (hnd : (keys s).Nodup)
    (h : stepTs c p s ts = some s') (g : String) (v' : Int)
    (hl : s'.lookup g = some v') :
    ∃ w, (postOneTwo c ts s).lookup g = some w ∧ v' ≤ w := by
  have hndp : (keys (postOneTwo c ts s)).Nodup := nodup_keys_postOneTwo c ts hnd
  rcases stepTs_some_cases h with ⟨-, rfl⟩ | ⟨ho3, rfl⟩
  · exact ⟨v', hl, le_refl _⟩
  · set lt := grantLtB c.grants p
    have hnds : (keys (sortPairs lt (postOneTwo c ts s))).Nodup :=
      nodup_keys_sortPairs lt hndp
    obtain ⟨w, hw, hle⟩ :=
      (consume_dom _ _ (by omega : (0:Int) ≤ _)).lookup hnds g v' hl
    rw [lookup_sortPairs lt hndp] at hw
    exact ⟨w, hw, hle⟩

theorem step_keys_subset {c : Credits} {p : String → Nat} {s : State}
    {ts : Int} {s' : State} (hnd : (keys s).Nodup)
    (h : stepTs c p s ts = some s') (g : String) (hg : g ∈ keys s') :
    g ∈ keys s ∨ g ∈ c.grants_ts ts := by
  rcases hv : s'.lookup g with _ | v'
  · exact absurd ((lookup_eq_none_iff s' g).mp hv) (by simpa using hg)
  · obtain ⟨w, hw, -⟩ := step_lookup_bound hnd h g v' hv
    rcases hgr : c.grants g with _ | r
    · rw [lookup_postOneTwo_none hgr] at hw
      by_cases he : g ∈ c.exp_ts ts
      · rw [if_pos he] at hw
        cases hw
      · rw [if_neg he] at hw
        left
        by_contra hc
        rw [(lookup_eq_none_iff s g).mpr hc] at hw
        cases hw
    · rw [lookup_postOneTwo_some hgr] at hw
      by_cases he : g ∈ c.exp_ts ts
      · rw [if_pos he] at hw
        cases hw
      · rw [if_neg he] at hw
        by_cases hcr : g ∈ c.grants_ts ts
        · exact Or.inr hcr
        · rw [if_neg hcr] at hw
          left
          by_contra hc
          rw [(lookup_eq_none_iff s g).mpr hc] at hw
          cases hw

/-- A grant not created at this timestamp can only shrink or disappear
across one replay iteration. -/
theorem step_dom_not_created {c : Credits} {p : String → Nat} {s : State}
    {ts : Int} {s' : State} (hnd : (keys s).Nodup)
    (h : stepTs c p s ts = some s') (g : String)
    (hg : g ∉ c.grants_ts ts) (v : Int) (hv : s.lookup g = some v) :
    s'.lookup g = none ∨ ∃ v', s'.lookup g = some v' ∧ v' ≤ v := by
  rcases hv' : s'.lookup g with _ | v'
  · exact Or.inl rfl
  · obtain ⟨w, hw, hle⟩ := step_lookup_bound hnd h g v' hv'
    have hwv : w = v := by
      rcases hgr : c.grants g with _ | r
      · rw [lookup_postOneTwo_none hgr] at hw
        by_cases he : g ∈ c.exp_ts ts
        · rw [if_pos he] at hw
          cases hw
        · rw [if_neg he, hv] at hw
          injection hw with hw
          exact hw.symm
      · rw [lookup_postOneTwo_some hgr] at hw
        by_cases he : g ∈ c.exp_ts ts
        · rw [if_pos he] at hw
          cases hw
        · rw [if_neg he, if_neg hg, hv] at hw
          injection hw with hw
          exact hw.symm
    exact Or.inr ⟨v', rfl, by omega⟩

/-- The central idempotence comparison: re-running one timestamp's
iteration (as the duplicate-containing timeline does) only shrinks the
state it produced the first time. -/
theorem step_idem_dom {c : Credits} {p : String → Nat} {s0 : State}
    {ts : Int} {s1 s2 : State}
    (hGr : ∀ g r, c.grants g = some r → 0 < r.amt)
    (hg0 : Good c s0) (h01 : stepTs c p s0 ts = some s1)
    (h12 : stepTs c p s1 ts = some s2) : Dom s2 s1 := by
  obtain ⟨hnd0, hpos0, hbd0⟩ := hg0
  have hg1 : Good c s1 := step_good hGr ⟨hnd0, hpos0, hbd0⟩ h01
  obtain ⟨hnd1, hpos1, hbd1⟩ := hg1
  set l1 := postOneTwo c ts s0 with hl1
  set l2 := postOneTwo c ts s1 with hl2
  have hndl1 : (keys l1).Nodup := nodup_keys_postOneTwo c ts hnd0
  have hndl2 : (keys l2).Nodup := nodup_keys_postOneTwo c ts hnd1
  have hposl1 : ∀ e ∈ l1, 0 < e.2 := postOneTwo_pos c ts hGr hpos0
  -- the second iteration's pre-debit state is dominated by the first's
  have hdom : Dom l2 l1 := by
    intro e he
    have hle : l2.lookup e.1 = some e.2 := lookup_of_mem hndl2 he
    have hins : ∀ w, l1.lookup e.1 = some w → e.2 ≤ w →
        ∃ v, (e.1, v) ∈ l1 ∧ e.2 ≤ v := by
      intro w hw hlew
      exact ⟨w, mem_of_lookup_eq_some hw, hlew⟩
    rcases hgr : c.grants e.1 with _ | r
    · rw [lookup_postOneTwo_none hgr] at hle
      by_cases hexp : e.1 ∈ c.exp_ts ts
      · rw [if_pos hexp] at hle
        cases hle
      · rw [if_neg hexp] at hle
        obtain ⟨w, hw, hlew⟩ := step_lookup_bound hnd0 h01 e.1 e.2 hle
        exact hins w hw hlew
    · rw [lookup_postOneTwo_some hgr] at hle
      by_cases hexp : e.1 ∈ c.exp_ts ts
      · rw [if_pos hexp] at hle
        cases hle
      · rw [if_neg hexp] at hle
        by_cases hcr : e.1 ∈ c.grants_ts ts
        · rw [if_pos hcr] at hle
          injection hle with hle
          refine hins r.amt ?_ (le_of_eq hle.symm)
          rw [lookup_postOneTwo_some hgr, if_neg hexp, if_pos hcr]
        · rw [if_neg hcr] at hle
          obtain ⟨w, hw, hlew⟩ := step_lookup_bound hnd0 h01 e.1 e.2 hle
          exact hins w hw hlew
  rcases stepTs_some_cases h01 with ⟨ho3, rfl⟩ | ⟨ho3, rfl⟩ <;>
    rcases stepTs_some_cases h12 with ⟨ho3', h2'⟩ | ⟨ho3', h2'⟩ <;>
      try exact absurd ho3 (by omega)
  · rw [h2']
    exact hdom
  · rw [h2']
    set lt := grantLtB c.grants p with hlt
    have htrans := grantLtB_trans c.grants p
    have htotal := fun a b => grantLtB_total c.grants p (g := a) (h := b)
    have hasymm : ∀ a b : String, lt a b = true → ¬ lt b a = true :=
      fun a b hab => grantLtB_asymm hab
    have hs1 : PairSorted lt (sortPairs lt l1) :=
      sortPairs_sorted htrans htotal hndl1
    have hs2 : PairSorted lt (sortPairs lt l2) :=
      sortPairs_sorted htrans htotal hndl2
    have hn1 : (keys (sortPairs lt l1)).Nodup := nodup_keys_sortPairs lt hndl1
    have hn2 : (keys (sortPairs lt l2)).Nodup := nodup_keys_sortPairs lt hndl2
    have hps1 : ∀ e ∈ sortPairs lt l1, (0:Int) ≤ e.2 := by
      intro e he
      exact le_of_lt (hposl1 e ((sortPairs_perm lt l1).mem_iff.mp he))
    have hdoms : Dom (sortPairs lt l2) (sortPairs lt l1) := by
      intro e he
      obtain ⟨w, hw, hlew⟩ := hdom e ((sortPairs_perm lt l2).mem_iff.mp he)
      exact ⟨w, (sortPairs_perm lt l1).mem_iff.mpr hw, hlew⟩
    exact consume_mono hasymm (sortPairs lt l1) (sortPairs lt l2) _ _
      (by omega) (le_refl _) hs1 hs2 hn1 hn2 hps1 hdoms

/-- The successive working states of one `get_balance` replay, mirroring
`goBalance`: start from the empty map, stop past the query timestamp or on
an unsatisfiable debit. -/
def traceGo (c : Credits) (p : String → Nat) (timestamp : Int) :
    State → List Int → List State
  | s, [] => [s]
  | s, ts :: rest =>
    if ts > timestamp then [s]
    else
      match stepTs c p s ts with
      | none => [s]
      | some s' => s :: traceGo c p timestamp s' rest

/-- The list of working states `get_balance c p timestamp` passes through. -/
def replayTrace (c : Credits) (p : String → Nat) (timestamp : Int) :
    List State :=
  traceGo c p timestamp [] c.timestamps

/-- How one replay iteration may change a grant's remaining amount: drop it
entirely, or keep it no larger than before. -/
def stepDecreasing (s s' : State) : Prop :=
  ∀ g v, s.lookup g = some v →
    s'.lookup g = none ∨ ∃ v', s'.lookup g = some v' ∧ v' ≤ v

/-- A single call carries a positive amount when it is a grant. -/
def posOp : Op → Prop
  | .grant _ _ a _ => 0 < a
  | .debit _ _ => True

instance (op : Op) : Decidable (posOp op) :=
  match op with
  | .grant _ _ a _ => inferInstanceAs (Decidable (0 < a))
  | .debit _ _ => inferInstanceAs (Decidable True)

/-- All grant amounts appearing in a history are positive (§3.1 of the data
model: amount is an integer > 0). -/
def PosGrants (L : List Op) : Prop :=
  ∀ op ∈ L, posOp op

instance (L : List Op) : Decidable (PosGrants L) :=
  inferInstanceAs (Decidable (∀ op ∈ L, posOp op))

/-- The grant ids a history creates, in order. -/
def gidsOf (L : List Op) : List String :=
  L.filterMap fun op =>
    match op with
    | .grant _ g _ _ => some g
    | .debit _ _ => none

theorem insort_perm (x : Int) : ∀ l : List Int, (insort x l).Perm (x :: l) := by
  intro l
  induction l with
  | nil => simp [insort]
  | cons y ys ih =>
    by_cases h : x < y
    · simp [insort, h]
    · simp only [insort, if_neg h]
      exact (ih.cons y).trans (List.Perm.swap x y ys)

theorem insort_sorted {l : List Int} (x : Int)
    (h : l.Sorted (· ≤ ·)) : (insort x l).Sorted (· ≤ ·) := by
  induction l with
  | nil => simp [insort]
  | cons y ys ih =>
    rcases List.pairwise_cons.mp h with ⟨hy, hys⟩
    by_cases hb : x < y
    · simp only [insort, if_pos hb]
      refine List.pairwise_cons.mpr ⟨?_, h⟩
      intro z hz
      rcases List.mem_cons.mp hz with hz | hz
      · omega
      · have := hy z hz
        omega
    · simp only [insort, if_neg hb]
      refine List.pairwise_cons.mpr ⟨?_, ih hys⟩
      intro z hz
      rcases List.mem_cons.mp ((insort_perm x ys).mem_iff.mp hz) with hz | hz
      · omega
      · exact hy z hz

theorem applyOp_timestamps_sorted {c : Credits} (op : Op)
    (h : c.timestamps.Sorted (· ≤ ·)) :
    (applyOp c op).timestamps.Sorted (· ≤ ·) := by
  rcases op with ⟨t, g, a, e⟩ | ⟨t, a⟩
  · exact insort_sorted e (insort_sorted t h)
  · exact insort_sorted t h

theorem foldl_timestamps_sorted :
    ∀ (L : List Op) (c : Credits), c.timestamps.Sorted (· ≤ ·) →
      ((L.foldl applyOp c).timestamps.Sorted (· ≤ ·)) := by
  intro L
  induction L with
  | nil => intro c h; simpa using h
  | cons op rest ih =>
    intro c h
    exact ih _ (applyOp_timestamps_sorted op h)

theorem applyOps_timestamps_sorted (L : List Op) :
    (applyOps L).timestamps.Sorted (· ≤ ·) :=
  foldl_timestamps_sorted L Credits.init (by simp [Credits.init])

theorem foldl_grants_pos :
    ∀ (L : List Op) (c : Credits), PosGrants L →
      (∀ g r, c.grants g = some r → 0 < r.amt) →
      ∀ g r, (L.foldl applyOp c).grants g = some r → 0 < r.amt := by
  intro L
  induction L with
  | nil => intro c _ h; simpa using h
  | cons op rest ih =>
    intro c hposL hc
    have hposrest : PosGrants rest := fun o ho => hposL o (List.mem_cons.mpr (Or.inr ho))
    refine ih _ hposrest ?_
    rcases op with ⟨t, g0, a, e⟩ | ⟨t, a⟩
    · intro g r hr
      simp only [applyOp, create_grant] at hr
      by_cases hg : g = g0
      · rw [if_pos hg] at hr
        injection hr with hr
        subst hr
        exact hposL (.grant t g0 a e) (List.mem_cons.mpr (Or.inl rfl))
      · rw [if_neg hg] at hr
        exact hc g r hr
    · intro g r hr
      exact hc g r hr

theorem applyOps_grants_pos {L : List Op} (h : PosGrants L) :
    ∀ g r, (applyOps L).grants g = some r → 0 < r.amt :=
  foldl_grants_pos L Credits.init h (by simp [Credits.init])

theorem foldl_created_unique :
    ∀ (L : List Op) (c : Credits), (gidsOf L).Nodup →
      (∀ g ∈ gidsOf L, ∀ t, g ∉ c.grants_ts t) →
      (∀ t g, g ∈ c.grants_ts t → ∃ r, c.grants g = some r ∧ r.ts = t) →
      ∀ t g, g ∈ (L.foldl applyOp c).grants_ts t →
        ∃ r, (L.foldl applyOp c).grants g = some r ∧ r.ts = t := by
  intro L
  induction L with
  | nil => intro c _ _ h; simpa using h
  | cons op rest ih =>
    intro c hnd hfresh hinv
    rcases op with ⟨t0, g0, a, e⟩ | ⟨t0, a⟩
    · have hcons : gidsOf (Op.grant t0 g0 a e :: rest) = g0 :: gidsOf rest := by
        simp [gidsOf]
      rw [hcons] at hnd hfresh
      have hnd' : (gidsOf rest).Nodup := (List.nodup_cons.mp hnd).2
      have hg0notin : g0 ∉ gidsOf rest := (List.nodup_cons.mp hnd).1
      have hg0fresh : ∀ t, g0 ∉ c.grants_ts t :=
        hfresh g0 (List.mem_cons_self _ _)
      have hg0ne : ∀ g ∈ gidsOf rest, g ≠ g0 := by
        intro g hg hc
        subst hc
        exact hg0notin hg
      refine ih _ hnd' ?_ ?_
      · intro g hg t hmem
        simp only [applyOp, create_grant] at hmem
        by_cases ht : t = t0
        · rw [if_pos ht] at hmem
          rcases List.mem_append.mp hmem with h' | h'
          · exact hfresh g (List.mem_cons.mpr (Or.inr hg)) t h'
          · simp only [List.mem_singleton] at h'
            exact hg0ne g hg h'
        · rw [if_neg ht] at hmem
          exact hfresh g (List.mem_cons.mpr (Or.inr hg)) t hmem
      · intro t g hmem
        simp only [applyOp, create_grant] at hmem ⊢
        by_cases hg : g = g0
        · subst hg
          refine ⟨⟨t0, g, a, e⟩, by rw [if_pos rfl], ?_⟩
          by_cases ht : t = t0
          · exact ht.symm
          · rw [if_neg ht] at hmem
            exact absurd hmem (hg0fresh t)
        · rw [if_neg hg]
          have hmem' : g ∈ c.grants_ts t := by
            by_cases ht : t = t0
            · rw [if_pos ht] at hmem
              rcases List.mem_append.mp hmem with h' | h'
              · exact h'
              · simp only [List.mem_singleton] at h'
                exact absurd h' hg
            · rw [if_neg ht] at hmem
              exact hmem
          exact hinv t g hmem'
    · have hcons : gidsOf (Op.debit t0 a :: rest) = gidsOf rest := by
        simp [gidsOf]
      rw [hcons] at hnd hfresh
      refine ih _ hnd ?_ ?_
      · intro g hg t hmem
        exact hfresh g hg t hmem
      · intro t g hmem
        exact hinv t g hmem

theorem applyOps_created_unique {L : List Op} (h : (gidsOf L).Nodup) :
    ∀ t g, g ∈ (applyOps L).grants_ts t →
      ∃ r, (applyOps L).grants g = some r ∧ r.ts = t :=
  foldl_created_unique L Credits.init h
    (by simp [Credits.init]) (by simp [Credits.init])

/-- Invariant tying a mid-replay state to the iteration that produced it:
the state is initial, or it came out of a step at a timestamp no later than
everything still to process, with every active grant created by then. -/
def PrevOK (c : Credits) (p : String → Nat) (s : State) (l : List Int) :
    Prop :=
  s = [] ∨ ∃ s0 ts0, Good c s0 ∧ stepTs c p s0 ts0 = some s ∧
    (∀ t ∈ l, ts0 ≤ t) ∧
    (∀ g ∈ keys s, ∃ r, c.grants g = some r ∧ r.ts ≤ ts0)

theorem traceGo_head (c : Credits) (p : String → Nat) (T : Int) :
    ∀ (l : List Int) (s : State), ∃ tl, traceGo c p T s l = s :: tl := by
  intro l s
  cases l with
  | nil => exact ⟨[], rfl⟩
  | cons ts rest =>
    by_cases h : ts > T
    · exact ⟨[], by simp [traceGo, h]⟩
    · rcases hst : stepTs c p s ts with _ | s'
      · exact ⟨[], by simp [traceGo, h, hst]⟩
      · exact ⟨traceGo c p T s' rest, by simp [traceGo, h, hst]⟩

/-- Along a sorted timeline, every replay state is good and successive
states only shrink grant-wise. -/
theorem traceGo_good_chain (c : Credits) (p : String → Nat) (T : Int)
    (hGr : ∀ g r, c.grants g = some r → 0 < r.amt)
    (hU : ∀ t g, g ∈ c.grants_ts t → ∃ r, c.grants g = some r ∧ r.ts = t) :
    ∀ (l : List Int) (s : State), l.Sorted (· ≤ ·) → Good c s →
      PrevOK c p s l →
      (∀ x ∈ traceGo c p T s l, Good c x) ∧
        (traceGo c p T s l).Chain' stepDecreasing := by
  intro l
  induction l with
  | nil =>
    intro s _ hg _
    constructor
    · intro x hx
      simp only [traceGo, List.mem_singleton] at hx
      subst hx
      exact hg
    · simp [traceGo]
  | cons ts rest ih =>
    intro s hsort hg hprev
    by_cases hT : ts > T
    · constructor
      · intro x hx
        simp only [traceGo, if_pos hT, List.mem_singleton] at hx
        subst hx
        exact hg
      · simp [traceGo, if_pos hT]
    · rcases hst : stepTs c p s ts with _ | s'
      · constructor
        · intro x hx
          simp only [traceGo, if_neg hT, hst, List.mem_singleton] at hx
          subst hx
          exact hg
        · simp [traceGo, if_neg hT, hst]
      · have hlist : traceGo c p T s (ts :: rest) =
            s :: traceGo c p T s' rest := by
          simp [traceGo, if_neg hT, hst]
        have hg' : Good c s' := step_good hGr hg hst
        rcases List.pairwise_cons.mp hsort with ⟨hts, hsortrest⟩
        have hprev' : PrevOK c p s' rest := by
          refine Or.inr ⟨s, ts, hg, hst, hts, ?_⟩
          intro g hgk
          rcases step_keys_subset hg.1 hst g hgk with hk | hk
          · rcases hprev with rfl | ⟨s0, ts0, hg0, hst0, hbnd, hkeys⟩
            · simp [keys] at hk
            · obtain ⟨r, hr, hle⟩ := hkeys g hk
              exact ⟨r, hr, le_trans hle (hbnd ts (List.mem_cons_self _ _))⟩
          · obtain ⟨r, hr, hrts⟩ := hU ts g hk
            exact ⟨r, hr, le_of_eq hrts⟩
        obtain ⟨hgood', hchain'⟩ := ih s' hsortrest hg' hprev'
        have hdec : stepDecreasing s s' := by
          intro g v hv
          by_cases hcr : g ∈ c.grants_ts ts
          · -- the grant was created at this very timestamp, so the state
            -- came from an earlier iteration of the same timestamp value
            obtain ⟨r, hr, hrts⟩ := hU ts g hcr
            have hgk : g ∈ keys s := by
              by_contra hc
              rw [(lookup_eq_none_iff s g).mpr hc] at hv
              cases hv
            rcases hprev with rfl | ⟨s0, ts0, hg0, hst0, hbnd, hkeys⟩
            · simp [keys] at hgk
            · obtain ⟨r', hr', hle'⟩ := hkeys g hgk
              have hrr : r' = r := by
                rw [hr] at hr'
                exact (Option.some.inj hr').symm
              have hts0 : ts0 = ts := by
                have h1 := hbnd ts (List.mem_cons_self _ _)
                have h2 : r.ts ≤ ts0 := hrr ▸ hle'
                omega
              rw [hts0] at hst0
              have hdom := step_idem_dom hGr hg0 hst0 hst
              rcases hv' : s'.lookup g with _ | v'
              · exact Or.inl rfl
              · obtain ⟨w, hw, hlew⟩ := hdom.lookup hg.1 g v' hv'
                rw [hv] at hw
                injection hw with hw
                exact Or.inr ⟨v', rfl, by omega⟩
          · exact step_dom_not_created hg.1 hst g hcr v hv
        constructor
        · intro x hx
          rw [hlist] at hx
          rcases List.mem_cons.mp hx with rfl | hx
          · exact hg
          · exact hgood' x hx
        · rw [hlist]
          obtain ⟨tl, htl⟩ := traceGo_head c p T rest s'
          rw [htl]
          rw [htl] at hchain'
          exact List.chain'_cons.mpr ⟨hdec, hchain'⟩

/-- Total remaining amount of the grants in a state that expire at `E`. -/
def groupTotal (gr : String → Option Grant) (s : State) (E : Int) : Int :=
  ((s.filter fun e => decide (etsOf gr e.1 = E)).map (·.2)).sum

theorem groupTotal_nil (gr : String → Option Grant) (E : Int) :
    groupTotal gr [] E = 0 := rfl

theorem groupTotal_cons (gr : String → Option Grant) (g : String) (v : Int)
    (r : State) (E : Int) :
    groupTotal gr ((g, v) :: r) E =
      (if etsOf gr g = E then v else 0) + groupTotal gr r E := by
  by_cases h : etsOf gr g = E <;>
    simp [groupTotal, List.filter, h]

theorem groupTotal_nonneg (gr : String → Option Grant) {s : State}
    (hpos : ∀ e ∈ s, 0 < e.2) (E : Int) : 0 ≤ groupTotal gr s E := by
  induction s with
  | nil => simp [groupTotal_nil]
  | cons e r ih =>
    rcases e with ⟨g, v⟩
    rw [groupTotal_cons]
    have h0 : (0:Int) < v := hpos (g, v) (List.mem_cons_self _ _)
    have hr := ih fun x hx => hpos x (List.mem_cons.mpr (Or.inr hx))
    by_cases h : etsOf gr g = E <;> simp [h] <;> omega

theorem le_groupTotal_of_mem (gr : String → Option Grant) {s : State}
    (hpos : ∀ e ∈ s, 0 < e.2) {g : String} {v : Int} (hm : (g, v) ∈ s) :
    v ≤ groupTotal gr s (etsOf gr g) := by
  induction s with
  | nil => simp at hm
  | cons e r ih =>
    rcases e with ⟨a, b⟩
    rw [groupTotal_cons]
    have hb : (0:Int) < b := hpos (a, b) (List.mem_cons_self _ _)
    have hrpos : ∀ x ∈ r, (0:Int) < x.2 :=
      fun x hx => hpos x (List.mem_cons.mpr (Or.inr hx))
    have hrnn := groupTotal_nonneg gr hrpos (etsOf gr g)
    rcases List.mem_cons.mp hm with heq | hmem
    · cases heq
      rw [if_pos rfl]
      omega
    · have := ih hrpos hmem
      by_cases h : etsOf gr a = etsOf gr g <;> simp [h] <;> omega

theorem groupTotal_eq_zero_no_mem (gr : String → Option Grant) {s : State}
    (hpos : ∀ e ∈ s, 0 < e.2) {E : Int} (h0 : groupTotal gr s E = 0)
    {g : String} {v : Int} (hm : (g, v) ∈ s) : etsOf gr g ≠ E := by
  intro hE
  have h1 := le_groupTotal_of_mem gr hpos hm
  rw [hE, h0] at h1
  exact absurd (hpos (g, v) hm) (by omega)

theorem groupTotal_perm (gr : String → Option Grant) {s s' : State}
    (h : s.Perm s') (E : Int) : groupTotal gr s E = groupTotal gr s' E := by
  unfold groupTotal
  exact ((h.filter _).map _).sum_eq

theorem sumVals_perm {s s' : State} (h : s.Perm s') :
    sumVals s = sumVals s' :=
  (h.map _).sum_eq

theorem sumVals_cons (g : String) (v : Int) (r : State) :
    sumVals ((g, v) :: r) = v + sumVals r := by
  simp [sumVals]

/-- The debit loop's arithmetic: what survives is what was there minus what
was actually consumed. -/
theorem consume_sum :
    ∀ (l : State) (tr : Int),
      sumVals (consumeList tr l).2 = sumVals l - tr + (consumeList tr l).1 := by
  intro l
  induction l with
  | nil => intro tr; simp [consumeList, sumVals]
  | cons e r ih =>
    rcases e with ⟨g, v⟩
    intro tr
    by_cases hb : v > tr
    · simp only [consumeList, if_pos hb, sumVals_cons]
      omega
    · simp only [consumeList, if_neg hb, sumVals_cons]
      rw [ih (tr - v)]
      omega

/-- A debit at least as large as the whole available pool consumes it
entirely. -/
theorem consume_all {l : State} (hpos : ∀ e ∈ l, 0 < e.2) :
    ∀ (tr : Int), sumVals l ≤ tr →
      consumeList tr l = (tr - sumVals l, []) := by
  induction l with
  | nil => intro tr _; simp [consumeList, sumVals]
  | cons e r ih =>
    rcases e with ⟨g, v⟩
    intro tr hle
    have hrpos : ∀ x ∈ r, (0:Int) < x.2 :=
      fun x hx => hpos x (List.mem_cons.mpr (Or.inr hx))
    have hrnn : 0 ≤ sumVals r := by
      have : ∀ x ∈ r.map (·.2), (0:Int) ≤ x := by
        intro x hx
        obtain ⟨e, he, rfl⟩ := List.mem_map.mp hx
        exact le_of_lt (hrpos e he)
      exact List.sum_nonneg this
    rw [sumVals_cons] at hle
    have hb : ¬ v > tr := by omega
    simp only [consumeList, if_neg hb]
    rw [ih hrpos (tr - v) (by omega), sumVals_cons]
    congr 1
    omega

/-- States listed in weakly increasing expiration order. -/
def etsSorted (gr : String → Option Grant) (l : State) : Prop :=
  l.Pairwise fun a b => etsOf gr a.1 ≤ etsOf gr b.1

theorem etsSorted_of_pairSorted {gr : String → Option Grant}
    {p : String → Nat} {l : State} (h : PairSorted (grantLtB gr p) l) :
    etsSorted gr l := by
  refine h.imp ?_
  intro a b hab
  rcases (grantLtB_iff gr p a.1 b.1).mp hab with h1 | ⟨h1, -⟩ <;> omega

/-- Total remaining amount of the grants in a state that expire strictly
before `E`: what the sorted debit loop consumes ahead of group `E`. -/
def belowTotal (gr : String → Option Grant) (s : State) (E : Int) : Int :=
  ((s.filter fun e => decide (etsOf gr e.1 < E)).map (·.2)).sum

theorem belowTotal_nil (gr : String → Option Grant) (E : Int) :
    belowTotal gr [] E = 0 := rfl

theorem belowTotal_cons (gr : String → Option Grant) (g : String) (v : Int)
    (r : State) (E : Int) :
    belowTotal gr ((g, v) :: r) E =
      (if etsOf gr g < E then v else 0) + belowTotal gr r E := by
  by_cases h : etsOf gr g < E <;>
    simp [belowTotal, List.filter, h]

theorem belowTotal_nonneg (gr : String → Option Grant) {s : State}
    (hpos : ∀ e ∈ s, 0 < e.2) (E : Int) : 0 ≤ belowTotal gr s E := by
  induction s with
  | nil => simp [belowTotal_nil]
  | cons e r ih =>
    rcases e with ⟨g, v⟩
    rw [belowTotal_cons]
    have h0 : (0:Int) < v := hpos (g, v) (List.mem_cons_self _ _)
    have hr := ih fun x hx => hpos x (List.mem_cons.mpr (Or.inr hx))
    by_cases h : etsOf gr g < E <;> simp [h] <;> omega

theorem belowTotal_perm (gr : String → Option Grant) {s s' : State}
    (h : s.Perm s') (E : Int) : belowTotal gr s E = belowTotal gr s' E := by
  unfold belowTotal
  exact ((h.filter _).map _).sum_eq

theorem belowTotal_eq_zero (gr : String → Option Grant) {s : State} {E : Int}
    (h : ∀ e ∈ s, ¬ etsOf gr e.1 < E) : belowTotal gr s E = 0 := by
  induction s with
  | nil => rfl
  | cons e r ih =>
    rcases e with ⟨g, v⟩
    rw [belowTotal_cons,
      if_neg (h (g, v) (List.mem_cons_self _ _)),
      ih fun x hx => h x (List.mem_cons.mpr (Or.inr hx))]
    omega

theorem groupTotal_eq_zero (gr : String → Option Grant) {s : State} {E : Int}
    (h : ∀ e ∈ s, etsOf gr e.1 ≠ E) : groupTotal gr s E = 0 := by
  induction s with
  | nil => rfl
  | cons e r ih =>
    rcases e with ⟨g, v⟩
    rw [groupTotal_cons,
      if_neg (h (g, v) (List.mem_cons_self _ _)),
      ih fun x hx => h x (List.mem_cons.mpr (Or.inr hx))]
    omega

theorem groupTotal_append (gr : String → Option Grant) (s t : State)
    (E : Int) :
    groupTotal gr (s ++ t) E = groupTotal gr s E + groupTotal gr t E := by
  simp [groupTotal, List.filter_append]

theorem belowTotal_append (gr : String → Option Grant) (s t : State)
    (E : Int) :
    belowTotal gr (s ++ t) E = belowTotal gr s E + belowTotal gr t E := by
  simp [belowTotal, List.filter_append]

theorem sumVals_append (s t : State) :
    sumVals (s ++ t) = sumVals s + sumVals t := by
  simp [sumVals]

theorem keys_append (s t : State) : keys (s ++ t) = keys s ++ keys t := by
  simp [keys]

/-- `grant_amts[g] = v` on a fresh key appends the pair. -/
theorem setAmt_fresh {g : String} {s : State} (h : g ∉ keys s) (v : Int) :
    setAmt g v s = s ++ [(g, v)] := by
  induction s with
  | nil => rfl
  | cons e r ih =>
    rcases e with ⟨a, b⟩
    simp only [keys, List.map_cons, List.mem_cons] at h
    rw [setAmt_cons, if_neg (fun hc => h (Or.inl hc.symm)),
      ih fun hc => h (Or.inr hc)]
    rfl

/-- The entries activation appends, in bucket order. -/
def actList (gr : String → Option Grant) (ids : List String) : State :=
  ids.filterMap fun g => (gr g).map fun r => (g, r.amt)

/-- Activating a bucket of fresh grant ids appends their entries. -/
theorem activateAll_eq_append (gr : String → Option Grant) :
    ∀ (ids : List String) (s : State), ids.Nodup →
      (∀ g ∈ ids, g ∉ keys s) →
      activateAll gr ids s = s ++ actList gr ids := by
  intro ids
  induction ids with
  | nil => intro s _ _; simp [activateAll, actList]
  | cons i ids ih =>
    intro s hnd hfresh
    obtain ⟨hi, hnd'⟩ := List.nodup_cons.mp hnd
    rcases hgi : gr i with _ | ri
    · have hstep : activateAll gr (i :: ids) s = activateAll gr ids s := by
        simp only [activateAll, List.foldl_cons, hgi]
      rw [hstep, ih s hnd'
        fun g hg => hfresh g (List.mem_cons.mpr (Or.inr hg))]
      simp [actList, List.filterMap_cons, hgi]
    · have hstep : activateAll gr (i :: ids) s =
          activateAll gr ids (setAmt i ri.amt s) := by
        simp only [activateAll, List.foldl_cons, hgi]
      rw [hstep,
        setAmt_fresh (hfresh i (List.mem_cons_self _ _)) ri.amt]
      have hfresh' : ∀ g ∈ ids, g ∉ keys (s ++ [(i, ri.amt)]) := by
        intro g hg hc
        rw [keys_append] at hc
        rcases List.mem_append.mp hc with hc | hc
        · exact hfresh g (List.mem_cons.mpr (Or.inr hg)) hc
        · simp only [keys, List.map_cons, List.map_nil,
            List.mem_singleton] at hc
          exact hi (hc ▸ hg)
      rw [ih _ hnd' hfresh', List.append_assoc]
      simp [actList, List.filterMap_cons, hgi]

/-- Every appended activation entry carries its recorded granted amount. -/
theorem mem_actList {gr : String → Option Grant} {ids : List String}
    {e : String × Int} (h : e ∈ actList gr ids) :
    ∃ r, gr e.1 = some r ∧ e.2 = r.amt := by
  obtain ⟨g, -, hg⟩ := List.mem_filterMap.mp h
  rcases hgr : gr g with _ | r
  · rw [hgr] at hg
    cases hg
  · rw [hgr] at hg
    have hg' : some (g, r.amt) = some e := hg
    injection hg' with hg'
    subst hg'
    exact ⟨r, hgr, rfl⟩

/-- The expiration pass removes exactly the entries whose id is in the
bucket. -/
theorem expireAll_eq_filter :
    ∀ (ids : List String) (s : State),
      expireAll ids s = s.filter fun e => decide (e.1 ∉ ids) := by
  intro ids
  induction ids with
  | nil => intro s; simp [expireAll]
  | cons i ids ih =>
    intro s
    have hstep : expireAll (i :: ids) s =
        expireAll ids (if (s.lookup i).isSome then eraseKey i s else s) := by
      simp only [expireAll, List.foldl_cons]
    have hkey : (if (s.lookup i).isSome then eraseKey i s else s) =
        s.filter fun e => decide (e.1 ≠ i) := by
      by_cases hsome : (s.lookup i).isSome
      · rw [if_pos hsome]
        rfl
      · rw [if_neg hsome]
        have hnone : s.lookup i = none := by
          rcases h : s.lookup i with _ | v
          · rfl
          · rw [h] at hsome
            simp at hsome
        have hik : i ∉ keys s := (lookup_eq_none_iff s i).mp hnone
        symm
        refine List.filter_eq_self.mpr ?_
        intro e he
        simp only [decide_eq_true_eq]
        intro hc
        exact hik (hc ▸ List.mem_map.mpr ⟨e, he, rfl⟩)
    rw [hstep, hkey, ih, List.filter_filter]
    refine List.filter_congr ?_
    intro e _
    by_cases h1 : e.1 = i <;> by_cases h2 : e.1 ∈ ids <;>
      simp [h1, h2, List.mem_cons]

theorem filter_ne_cons (gr : String → Option Grant) (ts : Int) (g : String)
    (v : Int) (r : State) :
    ((g, v) :: r).filter (fun e => decide (etsOf gr e.1 ≠ ts)) =
      if etsOf gr g = ts then r.filter (fun e => decide (etsOf gr e.1 ≠ ts))
      else (g, v) :: r.filter (fun e => decide (etsOf gr e.1 ≠ ts)) := by
  by_cases h : etsOf gr g = ts <;> simp [List.filter_cons, h]

theorem sumVals_split (gr : String → Option Grant) (ts : Int) :
    ∀ s : State,
      sumVals (s.filter fun e => decide (etsOf gr e.1 ≠ ts)) =
        sumVals s - groupTotal gr s ts := by
  intro s
  induction s with
  | nil => rfl
  | cons e r ih =>
    rcases e with ⟨g, v⟩
    rw [filter_ne_cons, groupTotal_cons, sumVals_cons]
    by_cases h : etsOf gr g = ts
    · rw [if_pos h, if_pos h, ih]
      omega
    · rw [if_neg h, if_neg h, sumVals_cons, ih]
      omega

theorem groupTotal_split (gr : String → Option Grant) (ts E : Int) :
    ∀ s : State,
      groupTotal gr (s.filter fun e => decide (etsOf gr e.1 ≠ ts)) E =
        if E = ts then 0 else groupTotal gr s E := by
  intro s
  induction s with
  | nil => by_cases h : E = ts <;> simp [groupTotal_nil, h]
  | cons e r ih =>
    rcases e with ⟨g, v⟩
    rw [filter_ne_cons]
    by_cases h : etsOf gr g = ts
    · rw [if_pos h, ih, groupTotal_cons]
      by_cases hE : E = ts
      · rw [if_pos hE, if_pos hE]
      · have hgE : ¬ etsOf gr g = E := by
          rw [h]
          exact fun hc => hE hc.symm
        rw [if_neg hE, if_neg hE, if_neg hgE]
        omega
    · rw [if_neg h, groupTotal_cons, groupTotal_cons, ih]
      by_cases hE : E = ts
      · have hgE : ¬ etsOf gr g = E := by
          rw [hE]
          exact h
        rw [if_pos hE, if_pos hE, if_neg hgE]
        omega
      · rw [if_neg hE, if_neg hE]

theorem belowTotal_split (gr : String → Option Grant) (ts E : Int) :
    ∀ s : State,
      belowTotal gr (s.filter fun e => decide (etsOf gr e.1 ≠ ts)) E =
        belowTotal gr s E - (if ts < E then groupTotal gr s ts else 0) := by
  intro s
  induction s with
  | nil => by_cases h : ts < E <;> simp [belowTotal_nil, groupTotal_nil, h]
  | cons e r ih =>
    rcases e with ⟨g, v⟩
    rw [filter_ne_cons, belowTotal_cons, groupTotal_cons]
    by_cases h : etsOf gr g = ts
    · rw [if_pos h, if_pos h, ih]
      by_cases hlt : ts < E
      · have hgE : etsOf gr g < E := by
          rw [h]
          exact hlt
        rw [if_pos hlt, if_pos hlt, if_pos hgE]
        omega
      · have hgE : ¬ etsOf gr g < E := by
          rw [h]
          exact hlt
        rw [if_neg hlt, if_neg hlt, if_neg hgE]
        omega
    · rw [if_neg h, belowTotal_cons, ih, if_neg h]
      by_cases hlt : ts < E
      · rw [if_pos hlt, if_pos hlt]
        omega
      · rw [if_neg hlt, if_neg hlt]
        omega

theorem sumVals_nonneg {s : State} (hpos : ∀ e ∈ s, 0 < e.2) :
    0 ≤ sumVals s := by
  induction s with
  | nil => simp [sumVals]
  | cons e r ih =>
    rcases e with ⟨g, v⟩
    rw [sumVals_cons]
    have h0 : (0:Int) < v := hpos (g, v) (List.mem_cons_self _ _)
    have hr := ih fun x hx => hpos x (List.mem_cons.mpr (Or.inr hx))
    omega

/-- Full characterisation of the debit loop on an expiration-sorted list of
positive entries: the unsatisfied remainder, the per-expiration-group
remaining totals and the running below-`E` totals depend only on the
corresponding totals of the input, not on the order within a tied
expiration group. -/
theorem consume_group (gr : String → Option Grant) :
    ∀ (l : State), etsSorted gr l → (∀ e ∈ l, 0 < e.2) →
      ∀ tr : Int, 0 ≤ tr →
        (consumeList tr l).1 = max 0 (tr - sumVals l) ∧
        (∀ E, groupTotal gr (consumeList tr l).2 E =
          groupTotal gr l E -
            min (groupTotal gr l E) (max 0 (tr - belowTotal gr l E))) ∧
        (∀ E, belowTotal gr (consumeList tr l).2 E =
          belowTotal gr l E - min (belowTotal gr l E) tr) := by
  intro l
  induction l with
  | nil =>
    intro _ _ tr htr
    refine ⟨?_, ?_, ?_⟩
    · simp only [consumeList, sumVals, List.map_nil, List.sum_nil]
      omega
    · intro E
      simp only [consumeList, groupTotal_nil, belowTotal_nil]
      omega
    · intro E
      simp only [consumeList, belowTotal_nil]
      omega
  | cons e r ih =>
    rcases e with ⟨g, v⟩
    intro hs hpos tr htr
    have hv : (0:Int) < v := hpos (g, v) (List.mem_cons_self _ _)
    have hrpos : ∀ x ∈ r, (0:Int) < x.2 :=
      fun x hx => hpos x (List.mem_cons.mpr (Or.inr hx))
    have hs0 : List.Pairwise (fun a b => etsOf gr a.1 ≤ etsOf gr b.1)
        ((g, v) :: r) := hs
    obtain ⟨hgeRaw, hs'⟩ := List.pairwise_cons.mp hs0
    have hge : ∀ x ∈ r, etsOf gr g ≤ etsOf gr x.1 := hgeRaw
    have hsumr : 0 ≤ sumVals r := sumVals_nonneg hrpos
    by_cases hb : v > tr
    · have hres : consumeList tr ((g, v) :: r) = (0, (g, v - tr) :: r) := by
        simp [consumeList, hb]
      rw [hres]
      refine ⟨?_, ?_, ?_⟩
      · simp only
        rw [sumVals_cons]
        omega
      · intro E
        simp only
        rw [groupTotal_cons, groupTotal_cons, belowTotal_cons]
        have hgrE := groupTotal_nonneg gr hrpos E
        have hbrE := belowTotal_nonneg gr hrpos E
        by_cases hE : etsOf gr g = E
        · have hlt : ¬ etsOf gr g < E := by
            rw [hE]
            omega
          have hbr0 : belowTotal gr r E = 0 :=
            belowTotal_eq_zero gr fun x hx => by
              have := hge x hx
              omega
          rw [if_pos hE, if_pos hE, if_neg hlt, hbr0]
          omega
        · by_cases hlt : etsOf gr g < E
          · rw [if_neg hE, if_neg hE, if_pos hlt]
            omega
          · have hgr0 : groupTotal gr r E = 0 :=
              groupTotal_eq_zero gr fun x hx => by
                have := hge x hx
                omega
            have hbr0 : belowTotal gr r E = 0 :=
              belowTotal_eq_zero gr fun x hx => by
                have := hge x hx
                omega
            rw [if_neg hE, if_neg hE, if_neg hlt, hgr0, hbr0]
            omega
      · intro E
        simp only
        rw [belowTotal_cons, belowTotal_cons]
        have hbrE := belowTotal_nonneg gr hrpos E
        by_cases hlt : etsOf gr g < E
        · rw [if_pos hlt, if_pos hlt]
          omega
        · have hbr0 : belowTotal gr r E = 0 :=
            belowTotal_eq_zero gr fun x hx => by
              have := hge x hx
              omega
          rw [if_neg hlt, if_neg hlt, hbr0]
          omega
    · have hres : consumeList tr ((g, v) :: r) = consumeList (tr - v) r := by
        simp [consumeList, hb]
      obtain ⟨ih1, ih2, ih3⟩ := ih hs' hrpos (tr - v) (by omega)
      rw [hres]
      refine ⟨?_, ?_, ?_⟩
      · rw [ih1, sumVals_cons]
        omega
      · intro E
        rw [ih2 E, groupTotal_cons, belowTotal_cons]
        have hgrE := groupTotal_nonneg gr hrpos E
        have hbrE := belowTotal_nonneg gr hrpos E
        by_cases hE : etsOf gr g = E
        · have hlt : ¬ etsOf gr g < E := by
            rw [hE]
            omega
          have hbr0 : belowTotal gr r E = 0 :=
            belowTotal_eq_zero gr fun x hx => by
              have := hge x hx
              omega
          rw [if_pos hE, if_neg hlt, hbr0]
          omega
        · by_cases hlt : etsOf gr g < E
          · rw [if_neg hE, if_pos hlt]
            omega
          · have hgr0 : groupTotal gr r E = 0 :=
              groupTotal_eq_zero gr fun x hx => by
                have := hge x hx
                omega
            have hbr0 : belowTotal gr r E = 0 :=
              belowTotal_eq_zero gr fun x hx => by
                have := hge x hx
                omega
            rw [if_neg hE, if_neg hlt, hgr0, hbr0]
            omega
      · intro E
        rw [ih3 E, belowTotal_cons]
        have hbrE := belowTotal_nonneg gr hrpos E
        by_cases hlt : etsOf gr g < E
        · rw [if_pos hlt]
          omega
        · have hbr0 : belowTotal gr r E = 0 :=
            belowTotal_eq_zero gr fun x hx => by
              have := hge x hx
              omega
          rw [if_neg hlt, hbr0]
          omega

/-- Structural facts about the per-timestamp indexes of a ledger built from
a history with unique grant ids: creation and expiration buckets hold no
duplicate ids, every recorded grant is indexed under its expiration
timestamp, and an expiration bucket holds only the grants expiring there. -/
theorem foldl_exp_inv :
    ∀ (L : List Op) (c : Credits), (gidsOf L).Nodup →
      (∀ g ∈ gidsOf L, (∀ t, g ∉ c.grants_ts t) ∧ (∀ t, g ∉ c.exp_ts t)) →
      ((∀ t, (c.grants_ts t).Nodup) ∧ (∀ t, (c.exp_ts t).Nodup) ∧
        (∀ g r, c.grants g = some r → g ∈ c.exp_ts r.ets) ∧
        (∀ t g, g ∈ c.exp_ts t → ∃ r, c.grants g = some r ∧ r.ets = t)) →
      ((∀ t, ((L.foldl applyOp c).grants_ts t).Nodup) ∧
        (∀ t, ((L.foldl applyOp c).exp_ts t).Nodup) ∧
        (∀ g r, (L.foldl applyOp c).grants g = some r →
          g ∈ (L.foldl applyOp c).exp_ts r.ets) ∧
        (∀ t g, g ∈ (L.foldl applyOp c).exp_ts t →
          ∃ r, (L.foldl applyOp c).grants g = some r ∧ r.ets = t)) := by
  intro L
  induction L with
  | nil => intro c _ _ h; simpa using h
  | cons op rest ih =>
    intro c hnd hfresh hinv
    obtain ⟨hBg, hBe, hW4, hW5⟩ := hinv
    rcases op with ⟨t0, g0, a, e⟩ | ⟨t0, a⟩
    · have hcons : gidsOf (Op.grant t0 g0 a e :: rest) = g0 :: gidsOf rest := by
        simp [gidsOf]
      rw [hcons] at hnd hfresh
      obtain ⟨hg0notin, hnd'⟩ := List.nodup_cons.mp hnd
      obtain ⟨hg0fg, hg0fe⟩ := hfresh g0 (List.mem_cons_self _ _)
      refine ih _ hnd' ?_ ?_
      · intro g hg
        obtain ⟨hf1, hf2⟩ := hfresh g (List.mem_cons.mpr (Or.inr hg))
        have hgne : g ≠ g0 := fun hc => hg0notin (hc ▸ hg)
        constructor
        · intro t hmem
          simp only [applyOp, create_grant] at hmem
          by_cases ht : t = t0
          · rw [if_pos ht] at hmem
            rcases List.mem_append.mp hmem with h' | h'
            · exact hf1 t h'
            · exact hgne (by simpa using h')
          · rw [if_neg ht] at hmem
            exact hf1 t hmem
        · intro t hmem
          simp only [applyOp, create_grant] at hmem
          by_cases ht : t = e
          · rw [if_pos ht] at hmem
            rcases List.mem_append.mp hmem with h' | h'
            · exact hf2 t h'
            · exact hgne (by simpa using h')
          · rw [if_neg ht] at hmem
            exact hf2 t hmem
      · refine ⟨?_, ?_, ?_, ?_⟩
        · intro t
          simp only [applyOp, create_grant]
          by_cases ht : t = t0
          · rw [if_pos ht]
            refine (hBg t).append (List.nodup_singleton g0) ?_
            intro x hx hx0
            simp only [List.mem_singleton] at hx0
            subst hx0
            exact hg0fg t hx
          · rw [if_neg ht]
            exact hBg t
        · intro t
          simp only [applyOp, create_grant]
          by_cases ht : t = e
          · rw [if_pos ht]
            refine (hBe t).append (List.nodup_singleton g0) ?_
            intro x hx hx0
            simp only [List.mem_singleton] at hx0
            subst hx0
            exact hg0fe t hx
          · rw [if_neg ht]
            exact hBe t
        · intro g r hr
          simp only [applyOp, create_grant] at hr ⊢
          by_cases hg : g = g0
          · rw [if_pos hg] at hr
            injection hr with hr
            subst hr
            subst hg
            simp
          · rw [if_neg hg] at hr
            have hold := hW4 g r hr
            by_cases ht : r.ets = e
            · rw [if_pos ht]
              exact List.mem_append.mpr (Or.inl hold)
            · rw [if_neg ht]
              exact hold
        · intro t g hmem
          simp only [applyOp, create_grant] at hmem ⊢
          have hofold : g ∈ c.exp_ts t → ∃ r,
              (if g = g0 then some ⟨t0, g0, a, e⟩ else c.grants g) = some r ∧
                r.ets = t := by
            intro hold
            obtain ⟨r, hr, hrets⟩ := hW5 t g hold
            have hgne : ¬ g = g0 := fun hc => hg0fe t (hc ▸ hold)
            exact ⟨r, by rw [if_neg hgne]; exact hr, hrets⟩
          by_cases ht : t = e
          · rw [if_pos ht] at hmem
            rcases List.mem_append.mp hmem with h' | h'
            · exact hofold h'
            · have hg : g = g0 := by simpa using h'
              subst hg
              exact ⟨⟨t0, g, a, e⟩, by rw [if_pos rfl], ht.symm⟩
          · rw [if_neg ht] at hmem
            exact hofold hmem
    · have hcons : gidsOf (Op.debit t0 a :: rest) = gidsOf rest := by
        simp [gidsOf]
      rw [hcons] at hnd hfresh
      refine ih _ hnd ?_ ?_
      · exact hfresh
      · exact ⟨hBg, hBe, hW4, hW5⟩

/-- The index facts, for a whole history from the empty ledger. -/
theorem applyOps_exp_inv {L : List Op} (h : (gidsOf L).Nodup) :
    (∀ t, ((applyOps L).grants_ts t).Nodup) ∧
      (∀ t, ((applyOps L).exp_ts t).Nodup) ∧
      (∀ g r, (applyOps L).grants g = some r →
        g ∈ (applyOps L).exp_ts r.ets) ∧
      (∀ t g, g ∈ (applyOps L).exp_ts t →
        ∃ r, (applyOps L).grants g = some r ∧ r.ets = t) :=
  foldl_exp_inv L Credits.init h (by simp [Credits.init])
    (by simp [Credits.init])

/-- One replay iteration, with its `let`s unfolded. -/
theorem stepTs_eq (c : Credits) (p : String → Nat) (s : State) (ts : Int) :
    stepTs c p s ts =
      if c.subtracts_ts ts > 0 then
        if (consumeList (c.subtracts_ts ts)
            (sortPairs (grantLtB c.grants p) (postOneTwo c ts s))).1 > 0
        then none
        else some (consumeList (c.subtracts_ts ts)
          (sortPairs (grantLtB c.grants p) (postOneTwo c ts s))).2
      else some (postOneTwo c ts s) := rfl

/-- How the activation and expiration passes move the three totals, on a
state whose active grants were all created at strictly earlier timestamps
(so the activated bucket is fresh). -/
theorem postOneTwo_totals (c : Credits) (ts : Int) {s : State}
    (hbd : ∀ e ∈ s, ∃ r, c.grants e.1 = some r)
    (hW4 : ∀ g r, c.grants g = some r → g ∈ c.exp_ts r.ets)
    (hW5 : ∀ t g, g ∈ c.exp_ts t → ∃ r, c.grants g = some r ∧ r.ets = t)
    (hBg : (c.grants_ts ts).Nodup)
    (hfresh : ∀ g ∈ c.grants_ts ts, g ∉ keys s) :
    (∀ E, groupTotal c.grants (postOneTwo c ts s) E =
      if E = ts then 0
      else groupTotal c.grants s E +
        groupTotal c.grants (actList c.grants (c.grants_ts ts)) E) ∧
    (∀ E, belowTotal c.grants (postOneTwo c ts s) E =
      belowTotal c.grants s E +
        belowTotal c.grants (actList c.grants (c.grants_ts ts)) E -
        (if ts < E then
          groupTotal c.grants s ts +
            groupTotal c.grants (actList c.grants (c.grants_ts ts)) ts
         else 0)) ∧
    sumVals (postOneTwo c ts s) =
      sumVals s + sumVals (actList c.grants (c.grants_ts ts)) -
        (groupTotal c.grants s ts +
          groupTotal c.grants (actList c.grants (c.grants_ts ts)) ts) := by
  have hact : activateAll c.grants (c.grants_ts ts) s =
      s ++ actList c.grants (c.grants_ts ts) :=
    activateAll_eq_append c.grants _ s hBg hfresh
  have hbd2 : ∀ e ∈ s ++ actList c.grants (c.grants_ts ts),
      ∃ r, c.grants e.1 = some r := by
    intro e he
    rcases List.mem_append.mp he with h | h
    · exact hbd e h
    · obtain ⟨r, hr, -⟩ := mem_actList h
      exact ⟨r, hr⟩
  have hexp : postOneTwo c ts s =
      (s ++ actList c.grants (c.grants_ts ts)).filter
        (fun e => decide (etsOf c.grants e.1 ≠ ts)) := by
    unfold postOneTwo
    rw [hact, expireAll_eq_filter]
    refine List.filter_congr ?_
    intro e he
    obtain ⟨r, hr⟩ := hbd2 e he
    have hets : etsOf c.grants e.1 = r.ets := by simp [etsOf, hr]
    by_cases hmem : e.1 ∈ c.exp_ts ts
    · obtain ⟨r2, hr2, hr2ets⟩ := hW5 ts e.1 hmem
      have hrr : r2 = r := by
        rw [hr] at hr2
        exact (Option.some.inj hr2).symm
      subst hrr
      simp [hmem, hets, hr2ets]
    · have hne : r.ets ≠ ts := fun hc => hmem (hc ▸ hW4 e.1 r hr)
      simp [hmem, hets, hne]
  rw [hexp]
  refine ⟨?_, ?_, ?_⟩
  · intro E
    rw [groupTotal_split, groupTotal_append]
  · intro E
    rw [belowTotal_split, belowTotal_append, groupTotal_append]
  · rw [sumVals_split, sumVals_append, groupTotal_append]

/-- The two-run comparison of one replay iteration: two set-iteration
orders either both abort on an unsatisfiable debit, or both continue with
states sharing all per-expiration-group totals, running below-totals and
the total balance. -/
theorem stepTs_two_run (c : Credits) (p q : String → Nat) (ts : Int)
    {s1 s2 : State}
    (hGr : ∀ g r, c.grants g = some r → 0 < r.amt)
    (hW4 : ∀ g r, c.grants g = some r → g ∈ c.exp_ts r.ets)
    (hW5 : ∀ t g, g ∈ c.exp_ts t → ∃ r, c.grants g = some r ∧ r.ets = t)
    (hBg : (c.grants_ts ts).Nodup)
    (hg1 : Good c s1) (hg2 : Good c s2)
    (hfresh1 : ∀ g ∈ c.grants_ts ts, g ∉ keys s1)
    (hfresh2 : ∀ g ∈ c.grants_ts ts, g ∉ keys s2)
    (hGT : ∀ E, groupTotal c.grants s1 E = groupTotal c.grants s2 E)
    (hBT : ∀ E, belowTotal c.grants s1 E = belowTotal c.grants s2 E)
    (hSV : sumVals s1 = sumVals s2) :
    (stepTs c p s1 ts = none ∧ stepTs c q s2 ts = none) ∨
      ∃ s1' s2', stepTs c p s1 ts = some s1' ∧ stepTs c q s2 ts = some s2' ∧
        (∀ E, groupTotal c.grants s1' E = groupTotal c.grants s2' E) ∧
        (∀ E, belowTotal c.grants s1' E = belowTotal c.grants s2' E) ∧
        sumVals s1' = sumVals s2' := by
  obtain ⟨hgt1, hbt1, hsv1⟩ := postOneTwo_totals c ts
    (fun e he => ⟨(hg1.2.2 e he).choose, (hg1.2.2 e he).choose_spec.1⟩)
    hW4 hW5 hBg hfresh1
  obtain ⟨hgt2, hbt2, hsv2⟩ := postOneTwo_totals c ts
    (fun e he => ⟨(hg2.2.2 e he).choose, (hg2.2.2 e he).choose_spec.1⟩)
    hW4 hW5 hBg hfresh2
  have hGTp : ∀ E, groupTotal c.grants (postOneTwo c ts s1) E =
      groupTotal c.grants (postOneTwo c ts s2) E := by
    intro E
    rw [hgt1 E, hgt2 E, hGT E]
  have hBTp : ∀ E, belowTotal c.grants (postOneTwo c ts s1) E =
      belowTotal c.grants (postOneTwo c ts s2) E := by
    intro E
    rw [hbt1 E, hbt2 E, hBT E, hGT ts]
  have hSVp : sumVals (postOneTwo c ts s1) = sumVals (postOneTwo c ts s2) := by
    rw [hsv1, hsv2, hSV, hGT ts]
  by_cases ho3 : c.subtracts_ts ts > 0
  · set lt1 := grantLtB c.grants p with hlt1
    set lt2 := grantLtB c.grants q with hlt2
    set b1 := sortPairs lt1 (postOneTwo c ts s1) with hb1
    set b2 := sortPairs lt2 (postOneTwo c ts s2) with hb2
    have hperm1 := sortPairs_perm lt1 (postOneTwo c ts s1)
    have hperm2 := sortPairs_perm lt2 (postOneTwo c ts s2)
    have hpos1 : ∀ e ∈ b1, 0 < e.2 :=
      fun e he => postOneTwo_pos c ts hGr hg1.2.1 e (hperm1.mem_iff.mp he)
    have hpos2 : ∀ e ∈ b2, 0 < e.2 :=
      fun e he => postOneTwo_pos c ts hGr hg2.2.1 e (hperm2.mem_iff.mp he)
    have hsorted1 : etsSorted c.grants b1 :=
      etsSorted_of_pairSorted (sortPairs_sorted (grantLtB_trans c.grants p)
        (fun a b => grantLtB_total c.grants p (g := a) (h := b))
        (nodup_keys_postOneTwo c ts hg1.1))
    have hsorted2 : etsSorted c.grants b2 :=
      etsSorted_of_pairSorted (sortPairs_sorted (grantLtB_trans c.grants q)
        (fun a b => grantLtB_total c.grants q (g := a) (h := b))
        (nodup_keys_postOneTwo c ts hg2.1))
    obtain ⟨hc11, hc12, hc13⟩ :=
      consume_group c.grants b1 hsorted1 hpos1 (c.subtracts_ts ts) (by omega)
    obtain ⟨hc21, hc22, hc23⟩ :=
      consume_group c.grants b2 hsorted2 hpos2 (c.subtracts_ts ts) (by omega)
    have hGTb : ∀ E, groupTotal c.grants b1 E = groupTotal c.grants b2 E := by
      intro E
      rw [groupTotal_perm c.grants hperm1 E,
        groupTotal_perm c.grants hperm2 E]
      exact hGTp E
    have hBTb : ∀ E, belowTotal c.grants b1 E = belowTotal c.grants b2 E := by
      intro E
      rw [belowTotal_perm c.grants hperm1 E,
        belowTotal_perm c.grants hperm2 E]
      exact hBTp E
    have hSVb : sumVals b1 = sumVals b2 := by
      rw [sumVals_perm hperm1, sumVals_perm hperm2]
      exact hSVp
    have hfst : (consumeList (c.subtracts_ts ts) b1).1 =
        (consumeList (c.subtracts_ts ts) b2).1 := by
      rw [hc11, hc21, hSVb]
    by_cases hleft : (consumeList (c.subtracts_ts ts) b1).1 > 0
    · left
      constructor
      · rw [stepTs_eq, if_pos ho3, if_pos hleft]
      · rw [stepTs_eq, if_pos ho3, if_pos (hfst ▸ hleft)]
    · right
      refine ⟨(consumeList (c.subtracts_ts ts) b1).2,
        (consumeList (c.subtracts_ts ts) b2).2, ?_, ?_, ?_, ?_, ?_⟩
      · rw [stepTs_eq, if_pos ho3, if_neg hleft]
      · rw [stepTs_eq, if_pos ho3, if_neg (hfst ▸ hleft)]
      · intro E
        rw [hc12 E, hc22 E, hGTb E, hBTb E]
      · intro E
        rw [hc13 E, hc23 E, hBTb E]
      · rw [consume_sum, consume_sum, hSVb, hfst]
  · right
    refine ⟨postOneTwo c ts s1, postOneTwo c ts s2, ?_, ?_, hGTp, hBTp, hSVp⟩
    · rw [stepTs_eq, if_neg ho3]
    · rw [stepTs_eq, if_neg ho3]

/-- Two whole replays of one timeline that differ only in the set-iteration
order return the same balance, provided every active grant was created
strictly before each remaining timestamp (which a strictly increasing
timeline maintains). -/
theorem goBalance_two_run (c : Credits) (p q : String → Nat) (T : Int)
    (hGr : ∀ g r, c.grants g = some r → 0 < r.amt)
    (hU : ∀ t g, g ∈ c.grants_ts t → ∃ r, c.grants g = some r ∧ r.ts = t)
    (hW4 : ∀ g r, c.grants g = some r → g ∈ c.exp_ts r.ets)
    (hW5 : ∀ t g, g ∈ c.exp_ts t → ∃ r, c.grants g = some r ∧ r.ets = t)
    (hBg : ∀ t, (c.grants_ts t).Nodup) :
    ∀ (l : List Int), l.Sorted (· < ·) →
      ∀ s1 s2 : State, Good c s1 → Good c s2 →
        (∀ g ∈ keys s1, ∃ r, c.grants g = some r ∧ ∀ t ∈ l, r.ts < t) →
        (∀ g ∈ keys s2, ∃ r, c.grants g = some r ∧ ∀ t ∈ l, r.ts < t) →
        (∀ E, groupTotal c.grants s1 E = groupTotal c.grants s2 E) →
        (∀ E, belowTotal c.grants s1 E = belowTotal c.grants s2 E) →
        sumVals s1 = sumVals s2 →
        goBalance c p T s1 l = goBalance c q T s2 l := by
  intro l
  induction l with
  | nil =>
    intro _ s1 s2 _ _ _ _ _ _ hSV
    simp only [goBalance, hSV]
  | cons ts rest ih =>
    intro hsort s1 s2 hg1 hg2 hk1 hk2 hGT hBT hSV
    have hsort0 : List.Pairwise (· < ·) (ts :: rest) := hsort
    obtain ⟨hts, hsort'⟩ := List.pairwise_cons.mp hsort0
    by_cases hT : ts > T
    · simp only [goBalance]
      rw [if_pos hT, if_pos hT, hSV]
    · have hfresh1 : ∀ g ∈ c.grants_ts ts, g ∉ keys s1 := by
        intro g hgmem hgk
        obtain ⟨r, hr, hlt⟩ := hk1 g hgk
        obtain ⟨r2, hr2, hr2ts⟩ := hU ts g hgmem
        have hrr : r2 = r := by
          rw [hr] at hr2
          exact (Option.some.inj hr2).symm
        subst hrr
        have := hlt ts (List.mem_cons_self _ _)
        omega
      have hfresh2 : ∀ g ∈ c.grants_ts ts, g ∉ keys s2 := by
        intro g hgmem hgk
        obtain ⟨r, hr, hlt⟩ := hk2 g hgk
        obtain ⟨r2, hr2, hr2ts⟩ := hU ts g hgmem
        have hrr : r2 = r := by
          rw [hr] at hr2
          exact (Option.some.inj hr2).symm
        subst hrr
        have := hlt ts (List.mem_cons_self _ _)
        omega
      simp only [goBalance]
      rw [if_neg hT, if_neg hT]
      rcases stepTs_two_run c p q ts hGr hW4 hW5 (hBg ts) hg1 hg2 hfresh1
          hfresh2 hGT hBT hSV with
        ⟨hn1, hn2⟩ | ⟨s1', s2', h1', h2', hGT', hBT', hSV'⟩
      · rw [hn1, hn2]
      · rw [h1', h2']
        have hk1' : ∀ g ∈ keys s1', ∃ r, c.grants g = some r ∧
            ∀ t ∈ rest, r.ts < t := by
          intro g hgk
          rcases step_keys_subset hg1.1 h1' g hgk with hk | hk
          · obtain ⟨r, hr, hlt⟩ := hk1 g hk
            exact ⟨r, hr, fun t ht => hlt t (List.mem_cons.mpr (Or.inr ht))⟩
          · obtain ⟨r, hr, hrts⟩ := hU ts g hk
            refine ⟨r, hr, fun t ht => ?_⟩
            have := hts t ht
            omega
        have hk2' : ∀ g ∈ keys s2', ∃ r, c.grants g = some r ∧
            ∀ t ∈ rest, r.ts < t := by
          intro g hgk
          rcases step_keys_subset hg2.1 h2' g hgk with hk | hk
          · obtain ⟨r, hr, hlt⟩ := hk2 g hk
            exact ⟨r, hr, fun t ht => hlt t (List.mem_cons.mpr (Or.inr ht))⟩
          · obtain ⟨r, hr, hrts⟩ := hU ts g hk
            refine ⟨r, hr, fun t ht => ?_⟩
            have := hts t ht
            omega
        exact ih hsort' s1' s2' (step_good hGr hg1 h1') (step_good hGr hg2 h2')
          hk1' hk2' hGT' hBT' hSV'

end CreditBalance

/-- C3: during every `get_balance` replay over a ledger obeying the data
model (unique grant ids, positive granted amounts), every active grant's
remaining amount stays positive and never exceeds its recorded granted
amount, and from each replay iteration to the next an active grant either
keeps a smaller-or-equal remaining amount (debit application) or disappears
from the available set (expiration or exhaustion) — it never increases. -/
theorem claim_C3_grant_amount_invariant (L : List CreditBalance.Op)
    (p : String → Nat) (T : Int)
    (hnd : (CreditBalance.gidsOf L).Nodup)
    (hpos : CreditBalance.PosGrants L) :
    (∀ s ∈ CreditBalance.replayTrace (CreditBalance.applyOps L) p T,
      ∀ e ∈ s, ∃ r, (CreditBalance.applyOps L).grants e.1 = some r ∧
        0 < e.2 ∧ e.2 ≤ r.amt) ∧
    (CreditBalance.replayTrace (CreditBalance.applyOps L) p T).Chain'
      CreditBalance.stepDecreasing := by
  have hGr := CreditBalance.applyOps_grants_pos hpos
  have hU := CreditBalance.applyOps_created_unique hnd
  have hsort := CreditBalance.applyOps_timestamps_sorted L
  have hinit : CreditBalance.Good (CreditBalance.applyOps L) [] :=
    ⟨by simp [CreditBalance.keys], by simp, by simp⟩
  obtain ⟨hgood, hchain⟩ :=
    CreditBalance.traceGo_good_chain (CreditBalance.applyOps L) p T hGr hU
      (CreditBalance.applyOps L).timestamps [] hsort hinit (Or.inl rfl)
  refine ⟨?_, hchain⟩
  intro s hs e he
  obtain ⟨-, hposv, hbd⟩ := hgood s hs
  obtain ⟨r, hr, hle⟩ := hbd e he
  exact ⟨r, hr, hposv e he, hle⟩

/-- Witness for C3 on the soonest-expiring-first ledger. -/
theorem claim_C3_grant_amount_invariant_witness :
    ((CreditBalance.gidsOf
        [.grant 10 "a" 3 60, .grant 20 "b" 2 40,
          .debit 30 1, .debit 50 3]).Nodup ∧
      CreditBalance.PosGrants
        [.grant 10 "a" 3 60, .grant 20 "b" 2 40,
          .debit 30 1, .debit 50 3]) ∧
    ((∀ s ∈ CreditBalance.replayTrace
        (CreditBalance.applyOps
          [.grant 10 "a" 3 60, .grant 20 "b" 2 40,
            .debit 30 1, .debit 50 3]) (fun _ => 0) 50,
      ∀ e ∈ s, ∃ r,
        (CreditBalance.applyOps
          [.grant 10 "a" 3 60, .grant 20 "b" 2 40,
            .debit 30 1, .debit 50 3]).grants e.1 = some r ∧
        0 < e.2 ∧ e.2 ≤ r.amt) ∧
    (CreditBalance.replayTrace
        (CreditBalance.applyOps
          [.grant 10 "a" 3 60, .grant 20 "b" 2 40,
            .debit 30 1, .debit 50 3]) (fun _ => 0) 50).Chain'
      CreditBalance.stepDecreasing) :=
  ⟨⟨by decide, by decide⟩,
    claim_C3_grant_amount_invariant
      [.grant 10 "a" 3 60, .grant 20 "b" 2 40, .debit 30 1, .debit 50 3]
      (fun _ => 0) 50 (by decide) (by decide)⟩

/-- C1: the claim says `get_balance` processes each distinct timeline
timestamp as exactly one replay step, with the debit total applied exactly
once and each grant activated exactly once per query.  The code instead
iterates the timeline list, which contains one entry per recorded event, so
a timestamp shared by several events is re-processed once per entry.  On the
history grant a(t=5, amount 3, exp 100); grant b(t=10, amount 3, exp 50);
debit 4 at t=10, the duplicated timestamp 10 makes the code re-activate b
and re-apply the debit: `get_balance(20)` returns 1 under every
set-iteration order, while the specified once-per-distinct-timestamp replay
returns 2. -/
theorem claim_C1_duplicate_timestamp_reprocessing :
    ∀ p : String → Nat,
      CreditBalance.get_balance CreditBalance.ledgerDup p 20 = some 1 ∧
      CreditBalance.get_balance_distinct CreditBalance.ledgerDup p 20 =
        some 2 := by
  intro p
  exact ⟨rfl, rfl⟩

/-- C4: on the ledger grant a(t=10, 3, exp 60); grant b(t=20, 2, exp 40);
debit 1 at 30; debit 3 at 50, the balances are 4 at t=30 (the debit consumed
the sooner-expiring b first), 3 at t=40 (b's remainder forfeited at
expiration) and 0 at t=50, under every set-iteration order. -/
theorem claim_C4_soonest_expiring_first :
    ∀ p : String → Nat,
      CreditBalance.get_balance CreditBalance.ledgerC4 p 30 = some 4 ∧
      CreditBalance.get_balance CreditBalance.ledgerC4 p 40 = some 3 ∧
      CreditBalance.get_balance CreditBalance.ledgerC4 p 50 = some 0 := by
  intro p
  exact ⟨rfl, rfl, rfl⟩

/-- C5: on the ledger grant a(t=10, 3, exp 60); debit 4 at t=20; grant
b(t=40, 10, exp e) for any e > 50, both `get_balance(20)` and
`get_balance(50)` are the absent-value sentinel: the debit at t=20 exceeds
the 3 available credits, and the replay for every query at or after t=20
aborts at that same unsatisfiable debit even though grant b alone would
cover it. -/
theorem claim_C5_insufficient_funds_permanent :
    ∀ (e : Int), 50 < e → ∀ p : String → Nat,
      CreditBalance.get_balance (CreditBalance.ledgerC5 e) p 20 = none ∧
      CreditBalance.get_balance (CreditBalance.ledgerC5 e) p 50 = none := by
  intro e he p
  constructor <;>
    simp (disch := omega) [CreditBalance.ledgerC5, CreditBalance.applyOps,
      CreditBalance.applyOp,
      CreditBalance.create_grant, CreditBalance.subtract,
      CreditBalance.Credits.init, CreditBalance.get_balance,
      CreditBalance.goBalance, CreditBalance.insort, CreditBalance.stepTs,
      CreditBalance.activateAll, CreditBalance.expireAll,
      CreditBalance.setAmt, CreditBalance.eraseKey, CreditBalance.sortPairs,
      CreditBalance.insertPair, CreditBalance.consumeList,
      CreditBalance.sumVals, CreditBalance.etsOf, CreditBalance.grantLtB,
      if_neg, if_pos]

/-- Witness for C5 at e = 61 with one concrete iteration order. -/
theorem claim_C5_insufficient_funds_permanent_witness :
    (50 : Int) < 61 ∧
      (CreditBalance.get_balance (CreditBalance.ledgerC5 61) (fun _ => 0) 20 =
          none ∧
        CreditBalance.get_balance (CreditBalance.ledgerC5 61) (fun _ => 0) 50 =
          none) :=
  ⟨by norm_num,
    claim_C5_insufficient_funds_permanent 61 (by norm_num) (fun _ => 0)⟩

/-- C6 counterexample: the claim says tied grants are consumed in grant-id
order and that the returned balance depends only on the recorded grants and
debits, never on the insertion or hash order of grant ids.  On the history
grant g1(t=5, 5, exp 100); grant g2(t=10, 5, exp 100); debit 4 at t=10, the
source's `sorted(available_expirations, key=ets)` leaves the tie between g1
and g2 to the set's iteration order, and the duplicated timestamp 10 makes
that order observable: iterating g1 first yields balance 2, iterating g2
first yields balance 6. -/
theorem claim_C6_counterexample :
    CreditBalance.get_balance CreditBalance.ledgerTie
        CreditBalance.orderG1First 20 = some 2 ∧
      CreditBalance.get_balance CreditBalance.ledgerTie
        CreditBalance.orderG2First 20 = some 6 ∧
      CreditBalance.get_balance CreditBalance.ledgerTie
          CreditBalance.orderG1First 20 ≠
        CreditBalance.get_balance CreditBalance.ledgerTie
          CreditBalance.orderG2First 20 := by
  refine ⟨rfl, rfl, ?_⟩
  decide

/-- C6 (amended): within a debit, tied grants are consumed in the
set-iteration order, not grant-id order; but on a ledger whose recorded
timeline holds no duplicated timestamp — with unique grant ids and positive
granted amounts, per the data model — the returned balance is independent
of that iteration order: replaying under any two orders `p`, `q` returns
the same result, so the balance depends only on the recorded grants and
debits. -/
theorem claim_C6_balance_order_independent (L : List CreditBalance.Op)
    (hts : (CreditBalance.applyOps L).timestamps.Nodup)
    (hgid : (CreditBalance.gidsOf L).Nodup)
    (hposL : CreditBalance.PosGrants L)
    (p q : String → Nat) (T : Int) :
    CreditBalance.get_balance (CreditBalance.applyOps L) p T =
      CreditBalance.get_balance (CreditBalance.applyOps L) q T := by
  obtain ⟨hBg, hBe, hW4, hW5⟩ := CreditBalance.applyOps_exp_inv hgid
  have hGr := CreditBalance.applyOps_grants_pos hposL
  have hU := CreditBalance.applyOps_created_unique hgid
  have hsortlt : (CreditBalance.applyOps L).timestamps.Sorted (· < ·) :=
    (CreditBalance.applyOps_timestamps_sorted L).lt_of_le hts
  unfold CreditBalance.get_balance
  refine CreditBalance.goBalance_two_run (CreditBalance.applyOps L) p q T hGr
    hU hW4 hW5 hBg (CreditBalance.applyOps L).timestamps hsortlt [] []
    ?_ ?_ ?_ ?_ ?_ ?_ rfl
  · exact ⟨by simp [CreditBalance.keys], by simp, by simp⟩
  · exact ⟨by simp [CreditBalance.keys], by simp, by simp⟩
  · intro g hg
    simp [CreditBalance.keys] at hg
  · intro g hg
    simp [CreditBalance.keys] at hg
  · intro E
    rfl
  · intro E
    rfl

/-- Witness for the amended C6 on the testable-property-3 history, whose
timeline timestamps are pairwise distinct: the two set-iteration orders
that disagree on the tied pair return one and the same balance. -/
theorem claim_C6_balance_order_independent_witness :
    ((CreditBalance.applyOps [CreditBalance.Op.grant 10 "a" 3 60,
        CreditBalance.Op.grant 20 "b" 2 40, CreditBalance.Op.debit 30 1,
        CreditBalance.Op.debit 50 3]).timestamps.Nodup ∧
      (CreditBalance.gidsOf [CreditBalance.Op.grant 10 "a" 3 60,
        CreditBalance.Op.grant 20 "b" 2 40, CreditBalance.Op.debit 30 1,
        CreditBalance.Op.debit 50 3]).Nodup ∧
      CreditBalance.PosGrants [CreditBalance.Op.grant 10 "a" 3 60,
        CreditBalance.Op.grant 20 "b" 2 40, CreditBalance.Op.debit 30 1,
        CreditBalance.Op.debit 50 3]) ∧
    CreditBalance.get_balance (CreditBalance.applyOps
        [CreditBalance.Op.grant 10 "a" 3 60,
          CreditBalance.Op.grant 20 "b" 2 40, CreditBalance.Op.debit 30 1,
          CreditBalance.Op.debit 50 3]) CreditBalance.orderG1First 50 =
      CreditBalance.get_balance (CreditBalance.applyOps
        [CreditBalance.Op.grant 10 "a" 3 60,
          CreditBalance.Op.grant 20 "b" 2 40, CreditBalance.Op.debit 30 1,
          CreditBalance.Op.debit 50 3]) CreditBalance.orderG2First 50 :=
  ⟨⟨by decide, by decide, by decide⟩,
    claim_C6_balance_order_independent
      [CreditBalance.Op.grant 10 "a" 3 60, CreditBalance.Op.grant 20 "b" 2 40,
        CreditBalance.Op.debit 30 1, CreditBalance.Op.debit 50 3]
      (by decide) (by decide) (by decide)
      CreditBalance.orderG1First CreditBalance.orderG2First 50⟩

namespace Consumers

/-- How decoding `base64.b64decode(kinesis_data["data"]).decode("utf-8")`
followed by `json.loads` can fail, grouped by the Python exception class the
handlers dispatch on: `json.JSONDecodeError`; the `ValueError` subclasses
raised by bad base64 (`binascii.Error`) or bad UTF-8 (`UnicodeDecodeError`);
and the `AttributeError` from calling `.get` on a non-object JSON value. -/
inductive DecodeFailure
  | jsonDecode
  | valueDecode
  | attrDecode
deriving DecidableEq

instance {ε α : Type _} [DecidableEq ε] [DecidableEq α] :
    DecidableEq (Except ε α) := fun a b =>
  match a, b with
  | .error x, .error y => decidable_of_iff (x = y) (by simp)
  | .ok x, .ok y => decidable_of_iff (x = y) (by simp)
  | .error _, .ok _ => isFalse (by simp)
  | .ok _, .error _ => isFalse (by simp)

/-- The `kinesis` envelope of one transport record.  Optional fields model
dict keys that may be absent (direct `[...]` access on a missing key raises
`KeyError`); the base64 `data` text is modelled by its decoding outcome. -/
structure KinesisEnv (π : Type) where
  sequenceNumber : Option String
  partitionKey : Option String
  payload : Option (Except DecodeFailure π)
  approximateArrivalTimestamp : Option Int
deriving DecidableEq

/-- One element of the `Records` batch. -/
structure StreamRecord (π : Type) where
  kinesis : Option (KinesisEnv π)
  eventSourceARN : Option String
deriving DecidableEq

/-- A record with no `kinesis` envelope at all. -/
def emptyRecord (π : Type) : StreamRecord π := ⟨none, none⟩

/-- Which `except` branch produced a per-record failure entry (the branches
differ only in the error-string prefix they log). -/
inductive ErrTag
  | invalidJson
  | validationError
  | missingField
  | otherError
deriving DecidableEq

/-- One entry of `failed_records`. -/
structure FailEntry where
  sequenceNumber : Option String
  error : ErrTag
deriving DecidableEq

/-- Python truthiness of an optional string (`if not x` / `if f.get(...)`):
absent and empty strings are falsy. -/
def pyTruthyStr (s : Option String) : Bool :=
  match s with
  | none => false
  | some s => !s.isEmpty

/-- `f"{x}"` for a value that may be Python `None`. -/
def pyStrOpt (s : Option String) : String :=
  match s with
  | none => "None"
  | some s => s

/-- The retry list built at the end of a failed batch:
`[{"itemIdentifier": f["sequenceNumber"]} for f in failed_records if
f.get("sequenceNumber")]`. -/
def retryList (fails : List FailEntry) : List String :=
  fails.filterMap fun f =>
    if pyTruthyStr f.sequenceNumber then f.sequenceNumber else none

/-- The two mutually exclusive return shapes of the user-activity, orders,
payments and (modulo breakdown) aggregator consumers. -/
inductive BatchReturn
  | retry (batchItemFailures : List String)
  | summary (batchSize successfulRecords failedRecords : Nat)
      (failures : List FailEntry)
deriving DecidableEq

/-- Assemble the final return value: the retry shape when any record
failed, the summary shape otherwise. -/
def retryOrSummary (batchSize succ : Nat) (fails : List FailEntry) :
    BatchReturn :=
  if fails.isEmpty then .summary batchSize succ fails.length fails
  else .retry (retryList fails)

/-- The user-activity payload `{ user_id, action, timestamp, metadata? }`
(read with `.get`, so its contents can never fail a record). -/
structure ActivityPayload where
  user_id : Option String
  action : Option String
  timestamp : Option String
deriving DecidableEq

/-- An exception escaping a consumer handler invocation. -/
inductive PyAbort
  | unboundLocalError
deriving DecidableEq

/-- One iteration of the user-activity record loop.  Unlike the other four
handlers, `user_activity/handler.py` never initialises `kinesis_data`
before the `try`, and its `except KeyError` branch reads
`kinesis_data.get("sequenceNumber")` unguarded; the loop variable is
therefore threaded across iterations (`none` = still unbound).  A missing
`kinesis` envelope raises `KeyError` before the assignment, so that branch
either dereferences the unbound local (`UnboundLocalError` escapes the
handler) or reads the previous record's stale envelope. -/
def uaStep (kdVar : Option (KinesisEnv ActivityPayload))
    (r : StreamRecord ActivityPayload) :
    Except PyAbort (Option (KinesisEnv ActivityPayload) × Option FailEntry) :=
  match r.kinesis with
  | none =>
    match kdVar with
    | none => .error .unboundLocalError
    | some stale => .ok (some stale, some ⟨stale.sequenceNumber, .missingField⟩)
  | some kd =>
    match kd.sequenceNumber with
    | none => .ok (some kd, some ⟨none, .missingField⟩)
    | some _ =>
      match kd.partitionKey with
      | none => .ok (some kd, some ⟨kd.sequenceNumber, .missingField⟩)
      | some _ =>
        match kd.payload with
        | none => .ok (some kd, some ⟨kd.sequenceNumber, .missingField⟩)
        | some (.error .jsonDecode) =>
          .ok (some kd, some ⟨kd.sequenceNumber, .invalidJson⟩)
        | some (.error .valueDecode) =>
          .ok (some kd, some ⟨kd.sequenceNumber, .otherError⟩)
        | some (.error .attrDecode) =>
          .ok (some kd, some ⟨kd.sequenceNumber, .otherError⟩)
        | some (.ok _) => .ok (some kd, none)

/-- The user-activity batch loop. -/
def uaGo (kdVar : Option (KinesisEnv ActivityPayload)) (succ : Nat)
    (fails : List FailEntry) :
    List (StreamRecord ActivityPayload) → Except PyAbort (Nat × List FailEntry)
  | [] => .ok (succ, fails)
  | r :: rest =>
    match uaStep kdVar r with
    | .error a => .error a
    | .ok (kd', none) => uaGo kd' (succ + 1) fails rest
    | .ok (kd', some f) => uaGo kd' succ (fails ++ [f]) rest

/-- `process_event` of the user-activity consumer
(`ecommerce-events-kinesis/lambda/user_activity/handler.py`). -/
def user_activity_process_event (records : List (StreamRecord ActivityPayload)) :
    Except PyAbort BatchReturn :=
  match uaGo none 0 [] records with
  | .error a => .error a
  | .ok (succ, fails) => .ok (retryOrSummary records.length succ fails)

/-- The fraud-detector payload `{ payment_id, amount }` (read with `.get`). -/
structure FraudPayload where
  payment_id : Option String
  amount : Option Int
deriving DecidableEq

/-- The fraud detector's two return shapes: the shared retry shape, or
`{"status": "ok", "processed": len(records)}`. -/
inductive FraudReturn
  | retry (batchItemFailures : List String)
  | ok (processed : Nat)
deriving DecidableEq

/-- One iteration of the fraud-detector loop: `none` when the record is
handled, otherwise the `record.get("kinesis", {}).get("sequenceNumber")`
value available to the `except` block. -/
def fraudStep (r : StreamRecord FraudPayload) : Option (Option String) :=
  match r.kinesis with
  | none => some none
  | some kd =>
    match kd.payload with
    | none => some kd.sequenceNumber
    | some (.error _) => some kd.sequenceNumber
    | some (.ok _) => none

/-- `process_event` of the fraud detector
(`ecommerce-events-kinesis/lambda/fraud_detector/handler.py`).  A failure is
recorded only when its sequence number is truthy (`if seq:`), so a record
whose envelope is missing contributes nothing and the all-clear summary
still reports it in `processed`. -/
def fraud_process_event (records : List (StreamRecord FraudPayload)) :
    FraudReturn :=
  let fails := records.foldl
    (fun acc r =>
      match fraudStep r with
      | none => acc
      | some seq => if pyTruthyStr seq then acc ++ [pyStrOpt seq] else acc)
    []
  if fails.isEmpty then .ok records.length else .retry fails

/-- The orders payload
`{ order_id, customer_id, type, items[], total_amount, currency, timestamp }`
(all read with `.get`; numeric JSON values are modelled as integers). -/
structure OrdersPayload where
  order_id : Option String
  customer_id : Option String
  type : Option String
  total_amount : Option Int
  currency : Option String
deriving DecidableEq

/-- The recognised order lifecycle types. -/
def orderTypes : List String := ["created", "updated", "cancelled", "fulfilled"]

/-- One iteration of the orders record loop
(`kinesis-starter-infra/lambda/orders/handler.py`): `none` on success.
`kinesis_data` is re-initialised to `None` each iteration, so the `except`
branches never see stale data.  An unrecognised `type` only logs a warning
and the record still succeeds; the per-type handlers and the high-value
alert are logging stubs with no observable effect. -/
def ordersStep (r : StreamRecord OrdersPayload) : Option FailEntry :=
  match r.kinesis with
  | none => some ⟨none, .otherError⟩
  | some kd =>
    match kd.sequenceNumber with
    | none => some ⟨none, .otherError⟩
    | some _ =>
      match kd.payload with
      | none => some ⟨kd.sequenceNumber, .otherError⟩
      | some (.error .jsonDecode) => some ⟨kd.sequenceNumber, .invalidJson⟩
      | some (.error .valueDecode) => some ⟨kd.sequenceNumber, .validationError⟩
      | some (.error .attrDecode) => some ⟨kd.sequenceNumber, .otherError⟩
      | some (.ok pl) =>
        if !pyTruthyStr pl.order_id then some ⟨kd.sequenceNumber, .validationError⟩
        else if !pyTruthyStr pl.customer_id then
          some ⟨kd.sequenceNumber, .validationError⟩
        else none

/-- The orders batch loop, counting successes and collecting failures. -/
def ordersCore (records : List (StreamRecord OrdersPayload)) :
    Nat × List FailEntry :=
  records.foldl
    (fun acc r =>
      match ordersStep r with
      | none => (acc.1 + 1, acc.2)
      | some f => (acc.1, acc.2 ++ [f]))
    (0, [])

/-- `process_event` of the orders consumer. -/
def orders_process_event (records : List (StreamRecord OrdersPayload)) :
    BatchReturn :=
  let core := ordersCore records
  retryOrSummary records.length core.1 core.2

/-- The payments payload
`{ payment_id, order_id, customer_id, type, amount, currency,
payment_method, timestamp }`. -/
structure PaymentPayload where
  payment_id : Option String
  order_id : Option String
  customer_id : Option String
  type : Option String
  amount : Option Int
  currency : Option String
  payment_method : Option String
deriving DecidableEq

/-- The recognised payment lifecycle types. -/
def paymentTypes : List String :=
  ["initiated", "authorized", "captured", "refunded", "failed"]

/-- `_generate_idempotency_key`: the SHA-256 hex digest of
`f"{payment_id}:{payment_type}"`.  The digest is modelled by its (injective
up to hash collisions) preimage string. -/
def _generate_idempotency_key (payment_id : String)
    (payment_type : Option String) : String :=
  payment_id ++ ":" ++ pyStrOpt payment_type

/-- The exception classes an invoked per-type payment handler could raise,
as dispatched on by the surrounding `except` clauses.  The shipped handlers
(`_handle_payment_initiated` etc.) are logging stubs that never raise; they
correspond to the constant-`none` handler behaviour. -/
inductive HandlerExc
  | valueError
  | otherExc
deriving DecidableEq

/-- The behaviour of the five per-type payment handler stubs, as a
parameter: `none` means the call returns normally. -/
def PaymentHandlers : Type := PaymentPayload → Option HandlerExc

/-- The outcome recorded for one payment record. -/
inductive RecOutcome
  | success
  | failed (f : FailEntry)
deriving DecidableEq

/-- One iteration of the payments record loop
(`kinesis-starter-infra/lambda/payments/handler.py`): decode, validate
`payment_id`/`order_id`/`amount`, check the idempotency key against the
process-local `_processed_payments` set, dispatch on the payment type, and
mark the key as processed only after a successful dispatch.  Returns the
outcome, the updated processed set, and the list of dispatched handler
calls `(payment_id, type)`. -/
def paymentsStep (h : PaymentHandlers) (processed : List String)
    (r : StreamRecord PaymentPayload) :
    RecOutcome × List String × List (String × Option String) :=
  match r.kinesis with
  | none => (.failed ⟨none, .otherError⟩, processed, [])
  | some kd =>
    match kd.sequenceNumber with
    | none => (.failed ⟨none, .otherError⟩, processed, [])
    | some _ =>
      match kd.payload with
      | none => (.failed ⟨kd.sequenceNumber, .otherError⟩, processed, [])
      | some (.error .jsonDecode) =>
        (.failed ⟨kd.sequenceNumber, .invalidJson⟩, processed, [])
      | some (.error .valueDecode) =>
        (.failed ⟨kd.sequenceNumber, .validationError⟩, processed, [])
      | some (.error .attrDecode) =>
        (.failed ⟨kd.sequenceNumber, .otherError⟩, processed, [])
      | some (.ok pl) =>
        if !pyTruthyStr pl.payment_id then
          (.failed ⟨kd.sequenceNumber, .validationError⟩, processed, [])
        else if !pyTruthyStr pl.order_id then
          (.failed ⟨kd.sequenceNumber, .validationError⟩, processed, [])
        else if pl.amount.getD 0 ≤ 0 then
          (.failed ⟨kd.sequenceNumber, .validationError⟩, processed, [])
        else
          let key := _generate_idempotency_key (pyStrOpt pl.payment_id) pl.type
          if key ∈ processed then (.success, processed, [])
          else if pl.type.any (fun t => t ∈ paymentTypes) then
            match h pl with
            | none =>
              (.success, processed.insert key, [(pyStrOpt pl.payment_id, pl.type)])
            | some .valueError =>
              (.failed ⟨kd.sequenceNumber, .validationError⟩, processed,
                [(pyStrOpt pl.payment_id, pl.type)])
            | some .otherExc =>
              (.failed ⟨kd.sequenceNumber, .otherError⟩, processed,
                [(pyStrOpt pl.payment_id, pl.type)])
          else (.failed ⟨kd.sequenceNumber, .validationError⟩, processed, [])

/-- Accumulated observables of a payments batch. -/
structure PayBatch where
  successful : Nat
  failures : List FailEntry
  processed : List String
  calls : List (String × Option String)
deriving DecidableEq

/-- The payments batch loop. -/
def paymentsGo (h : PaymentHandlers) (acc : PayBatch) :
    List (StreamRecord PaymentPayload) → PayBatch
  | [] => acc
  | r :: rest =>
    match paymentsStep h acc.processed r with
    | (.success, set', calls) =>
      paymentsGo h
        ⟨acc.successful + 1, acc.failures, set', acc.calls ++ calls⟩ rest
    | (.failed f, set', calls) =>
      paymentsGo h
        ⟨acc.successful, acc.failures ++ [f], set', acc.calls ++ calls⟩ rest

/-- The payments batch loop from a given process-local processed set. -/
def paymentsCore (h : PaymentHandlers) (processed : List String)
    (records : List (StreamRecord PaymentPayload)) : PayBatch :=
  paymentsGo h ⟨0, [], processed, []⟩ records

/-- `process_event` of the payments consumer, returning the response
together with the process-local processed set it leaves behind. -/
def payments_process_event (h : PaymentHandlers) (processed : List String)
    (records : List (StreamRecord PaymentPayload)) :
    BatchReturn × List String :=
  let core := paymentsCore h processed records
  (retryOrSummary records.length core.successful core.failures, core.processed)

/-- Does the character list start with the pattern? -/
def charsStart : List Char → List Char → Bool
  | _, [] => true
  | [], _ :: _ => false
  | a :: as, b :: bs => a == b && charsStart as bs

/-- Does the character list contain the pattern as a contiguous run? -/
def charsHas : List Char → List Char → Bool
  | _, [] => true
  | [], _ :: _ => false
  | a :: as, b :: bs => charsStart (a :: as) (b :: bs) || charsHas as (b :: bs)

/-- Python `needle in hay` on strings. -/
def strHasSub (hay needle : String) : Bool :=
  charsHas hay.toList needle.toList

/-- The aggregator payload (fields read with `.get` only). -/
structure AggPayload where
  user_id : Option String
  customer_id : Option String
  action : Option String
  amount : Option Int
  type : Option String
deriving DecidableEq

/-- Which bucket the aggregator routes a decoded record into. -/
inductive AggRoute
  | userActivity
  | payments
  | unknown
deriving DecidableEq

/-- Source routing by case-insensitive substring match on the record's
`eventSourceARN` (defaulted to `""`). -/
def aggRoute (arn : Option String) : AggRoute :=
  let a := (arn.getD "").toLower
  if strHasSub a "user_activity" then .userActivity
  else if strHasSub a "payments" then .payments
  else .unknown

/-- One iteration of the aggregator record loop
(`kinesis-starter-infra/lambda/analytics_aggregator/handler.py`): either a
failure entry, or the bucket of a successfully classified record. -/
def aggStep (r : StreamRecord AggPayload) : Except FailEntry AggRoute :=
  match r.kinesis with
  | none => .error ⟨none, .otherError⟩
  | some kd =>
    match kd.sequenceNumber with
    | none => .error ⟨none, .otherError⟩
    | some _ =>
      match kd.payload with
      | none => .error ⟨kd.sequenceNumber, .otherError⟩
      | some (.error .jsonDecode) => .error ⟨kd.sequenceNumber, .invalidJson⟩
      | some (.error .valueDecode) => .error ⟨kd.sequenceNumber, .otherError⟩
      | some (.error .attrDecode) => .error ⟨kd.sequenceNumber, .otherError⟩
      | some (.ok _) => .ok (aggRoute r.eventSourceARN)

/-- Accumulated observables of an aggregator batch: success count, failure
entries, and the three routing-bucket counts. -/
structure AggBatch where
  successful : Nat
  failures : List FailEntry
  userActivityRecords : Nat
  paymentRecords : Nat
  unknownRecords : Nat
deriving DecidableEq

/-- The aggregator batch loop; the aggregation and correlation passes that
follow it only log and are omitted as no-ops. -/
def aggCore (records : List (StreamRecord AggPayload)) : AggBatch :=
  records.foldl
    (fun acc r =>
      match aggStep r with
      | .error f => { acc with failures := acc.failures ++ [f] }
      | .ok .userActivity =>
        { acc with
          successful := acc.successful + 1
          userActivityRecords := acc.userActivityRecords + 1 }
      | .ok .payments =>
        { acc with
          successful := acc.successful + 1
          paymentRecords := acc.paymentRecords + 1 }
      | .ok .unknown =>
        { acc with
          successful := acc.successful + 1
          unknownRecords := acc.unknownRecords + 1 })
    ⟨0, [], 0, 0, 0⟩

/-- The aggregator's return shapes (its summary nests a breakdown). -/
inductive AggReturn
  | retry (batchItemFailures : List String)
  | summary (batchSize successfulRecords failedRecords : Nat)
      (userActivityRecords paymentRecords unknownRecords : Nat)
deriving DecidableEq

/-- `process_event` of the analytics aggregator. -/
def aggregator_process_event (records : List (StreamRecord AggPayload)) :
    AggReturn :=
  let core := aggCore records
  if core.failures.isEmpty then
    .summary records.length core.successful core.failures.length
      core.userActivityRecords core.paymentRecords core.unknownRecords
  else .retry (retryList core.failures)

end Consumers

/-- C2: the claim says all five consumers turn a batch element lacking the
`kinesis` envelope into one per-record failure entry (no payload, no
resolvable sequence number) and still return a batch result without
raising.  This holds for the payments, orders and aggregator consumers, but
the user-activity handler's `except KeyError` branch dereferences the
never-initialised `kinesis_data` local, so on a first-record missing
envelope the `UnboundLocalError` escapes the handler; and the fraud
detector's `if seq:` guard silently drops the failure, returning the
all-clear `{"status": "ok"}` shape that counts the bad record as
processed. -/
theorem claim_C2_missing_envelope_eval :
    Consumers.user_activity_process_event
        [Consumers.emptyRecord Consumers.ActivityPayload] =
      .error .unboundLocalError ∧
    Consumers.fraud_process_event
        [Consumers.emptyRecord Consumers.FraudPayload] = .ok 1 ∧
    (Consumers.paymentsCore (fun _ => none) []
        [Consumers.emptyRecord Consumers.PaymentPayload]).failures =
      [⟨none, .otherError⟩] ∧
    (Consumers.payments_process_event (fun _ => none) []
        [Consumers.emptyRecord Consumers.PaymentPayload]).1 = .retry [] ∧
    (Consumers.ordersCore [Consumers.emptyRecord Consumers.OrdersPayload]).2 =
      [⟨none, .otherError⟩] ∧
    Consumers.orders_process_event
        [Consumers.emptyRecord Consumers.OrdersPayload] = .retry [] ∧
    (Consumers.aggCore [Consumers.emptyRecord Consumers.AggPayload]).failures =
      [⟨none, .otherError⟩] ∧
    Consumers.aggregator_process_event
        [Consumers.emptyRecord Consumers.AggPayload] = .retry [] := by
  decide

/-- C7: for a decodable record with the required identifiers present, the
orders consumer treats an unrecognised order type as a success (logged
only, no failure entry, summary shape), whereas the payments consumer
(identifiers present, positive amount, key not yet processed) raises a
validation error on an unrecognised payment type, putting the record's
sequence number into the retry list. -/
theorem claim_C7_unknown_type_divergence
    (okd : Consumers.KinesisEnv Consumers.OrdersPayload) (oarn : Option String)
    (opl : Consumers.OrdersPayload) (osq : String)
    (hoseq : okd.sequenceNumber = some osq)
    (hopl : okd.payload = some (.ok opl))
    (hoid : Consumers.pyTruthyStr opl.order_id = true)
    (hocust : Consumers.pyTruthyStr opl.customer_id = true)
    (h : Consumers.PaymentHandlers) (S : List String)
    (pkd : Consumers.KinesisEnv Consumers.PaymentPayload)
    (parn : Option String) (ppl : Consumers.PaymentPayload) (psq : String)
    (hpseq : pkd.sequenceNumber = some psq) (hpsq : psq.isEmpty = false)
    (hppl : pkd.payload = some (.ok ppl))
    (hpid : Consumers.pyTruthyStr ppl.payment_id = true)
    (hpord : Consumers.pyTruthyStr ppl.order_id = true)
    (hamt : 0 < ppl.amount.getD 0)
    (hpty : ∀ t ∈ Consumers.paymentTypes, ppl.type ≠ some t)
    (hkey : Consumers._generate_idempotency_key
        (Consumers.pyStrOpt ppl.payment_id) ppl.type ∉ S) :
    Consumers.ordersStep ⟨some okd, oarn⟩ = none ∧
    Consumers.orders_process_event [⟨some okd, oarn⟩] = .summary 1 1 0 [] ∧
    Consumers.paymentsStep h S ⟨some pkd, parn⟩ =
      (.failed ⟨some psq, .validationError⟩, S, []) ∧
    Consumers.payments_process_event h S [⟨some pkd, parn⟩] =
      (.retry [psq], S) := by
  have hty' : ppl.type.any (fun t => t ∈ Consumers.paymentTypes) = false := by
    cases hty : ppl.type with
    | none => rfl
    | some t =>
      have := hpty t
      simp [hty] at this
      simp [Option.any, this]
  have horders : Consumers.ordersStep ⟨some okd, oarn⟩ = none := by
    simp [Consumers.ordersStep, hoseq, hopl, hoid, hocust]
  have hpay : Consumers.paymentsStep h S ⟨some pkd, parn⟩ =
      (.failed ⟨some psq, .validationError⟩, S, []) := by
    simp (disch := omega) [Consumers.paymentsStep, hpseq, hppl, hpid, hpord,
      hkey, hty', if_neg, if_pos]
  refine ⟨horders, ?_, hpay, ?_⟩
  · simp [Consumers.orders_process_event, Consumers.ordersCore, horders,
      Consumers.retryOrSummary]
  · simp [Consumers.payments_process_event, Consumers.paymentsCore,
      Consumers.paymentsGo, hpay, Consumers.retryOrSummary,
      Consumers.retryList, Consumers.pyTruthyStr, hpsq]

/-- Witness for C7 at concrete records (unknown types "weird"/"bogus"). -/
theorem claim_C7_unknown_type_divergence_witness :
    Consumers.ordersStep
        ⟨some ⟨some "s1", some "p", some (.ok ⟨some "o1", some "c1",
          some "weird", some 5, none⟩), none⟩, none⟩ = none ∧
    Consumers.orders_process_event
        [⟨some ⟨some "s1", some "p", some (.ok ⟨some "o1", some "c1",
          some "weird", some 5, none⟩), none⟩, none⟩] = .summary 1 1 0 [] ∧
    Consumers.paymentsStep (fun _ => none) []
        ⟨some ⟨some "s2", some "p", some (.ok ⟨some "p1", some "o1", none,
          some "bogus", some 5, none, none⟩), none⟩, none⟩ =
      (.failed ⟨some "s2", .validationError⟩, [], []) ∧
    Consumers.payments_process_event (fun _ => none) []
        [⟨some ⟨some "s2", some "p", some (.ok ⟨some "p1", some "o1", none,
          some "bogus", some 5, none, none⟩), none⟩, none⟩] =
      (.retry ["s2"], []) :=
  claim_C7_unknown_type_divergence
    ⟨some "s1", some "p", some (.ok ⟨some "o1", some "c1", some "weird",
      some 5, none⟩), none⟩ none
    ⟨some "o1", some "c1", some "weird", some 5, none⟩ "s1" rfl rfl
    (by decide) (by decide) (fun _ => none) []
    ⟨some "s2", some "p", some (.ok ⟨some "p1", some "o1", none,
      some "bogus", some 5, none, none⟩), none⟩ none
    ⟨some "p1", some "o1", none, some "bogus", some 5, none, none⟩ "s2"
    rfl (by decide) rfl (by decide) (by decide) (by decide) (by decide)
    (by decide)

namespace Consumers

/-- The processed set never shrinks across one payment record. -/
theorem paymentsStep_subset (h : PaymentHandlers) (S : List String)
    (r : StreamRecord PaymentPayload) : S ⊆ (paymentsStep h S r).2.1 := by
  unfold paymentsStep
  rcases r with ⟨k, arn⟩
  rcases k with _ | kd
  · simp
  rcases kd with ⟨sq, pk, pay, at_⟩
  rcases sq with _ | sq
  · simp
  rcases pay with _ | pay
  · simp
  rcases pay with e | pl
  · rcases e <;> simp
  simp only
  split
  · simp
  split
  · simp
  split
  · simp
  split
  · simp
  split
  · split
    · exact List.subset_insert _ _
    · simp
    · simp
  · simp

/-- The processed set never shrinks across a payments batch. -/
theorem paymentsGo_subset (h : PaymentHandlers) :
    ∀ (records : List (StreamRecord PaymentPayload)) (acc : PayBatch),
      acc.processed ⊆ (paymentsGo h acc records).processed := by
  intro records
  induction records with
  | nil => intro acc; simp [paymentsGo]
  | cons r rest ih =>
    intro acc
    have hstep := paymentsStep_subset h acc.processed r
    unfold paymentsGo
    rcases hr : paymentsStep h acc.processed r with ⟨out, set', calls⟩
    rw [hr] at hstep
    simp only at hstep
    rcases out with _ | f
    · exact hstep.trans
        (ih ⟨acc.successful + 1, acc.failures, set', acc.calls ++ calls⟩)
    · exact hstep.trans
        (ih ⟨acc.successful, acc.failures ++ [f], set', acc.calls ++ calls⟩)

end Consumers

/-- C8: in the payments consumer, a decodable record with `payment_id` and
`order_id` present and positive amount whose idempotency key (the hash of
`payment_id:type`) is already in the process-local processed set is counted
as a success without invoking any per-type handler and without changing the
set; the key enters the set exactly when a record of that `payment_id` and
`type` is dispatched successfully, and the set only ever grows across the
batches one warm process instance handles, so the duplicate is skipped
whether it arrives in the same batch or a later one. -/
theorem claim_C8_idempotent_duplicate_skipped :
    (∀ (h : Consumers.PaymentHandlers) (S : List String)
        (kd : Consumers.KinesisEnv Consumers.PaymentPayload)
        (arn : Option String) (pl : Consumers.PaymentPayload) (sq : String),
      kd.sequenceNumber = some sq →
      kd.payload = some (.ok pl) →
      Consumers.pyTruthyStr pl.payment_id = true →
      Consumers.pyTruthyStr pl.order_id = true →
      0 < pl.amount.getD 0 →
      Consumers._generate_idempotency_key
          (Consumers.pyStrOpt pl.payment_id) pl.type ∈ S →
      Consumers.paymentsStep h S ⟨some kd, arn⟩ = (.success, S, [])) ∧
    (∀ (h : Consumers.PaymentHandlers) (S : List String)
        (kd : Consumers.KinesisEnv Consumers.PaymentPayload)
        (arn : Option String) (pl : Consumers.PaymentPayload) (sq : String),
      kd.sequenceNumber = some sq →
      kd.payload = some (.ok pl) →
      Consumers.pyTruthyStr pl.payment_id = true →
      Consumers.pyTruthyStr pl.order_id = true →
      0 < pl.amount.getD 0 →
      Consumers._generate_idempotency_key
          (Consumers.pyStrOpt pl.payment_id) pl.type ∉ S →
      pl.type.any (fun t => t ∈ Consumers.paymentTypes) = true →
      h pl = none →
      Consumers.paymentsStep h S ⟨some kd, arn⟩ =
        (.success,
          S.insert (Consumers._generate_idempotency_key
            (Consumers.pyStrOpt pl.payment_id) pl.type),
          [(Consumers.pyStrOpt pl.payment_id, pl.type)])) ∧
    (∀ (h : Consumers.PaymentHandlers) (S : List String)
        (records : List (Consumers.StreamRecord Consumers.PaymentPayload)),
      S ⊆ (Consumers.paymentsCore h S records).processed) := by
  refine ⟨?_, ?_, ?_⟩
  · intro h S kd arn pl sq hseq hpl hpid hpord hamt hkey
    simp (disch := omega) [Consumers.paymentsStep, hseq, hpl, hpid, hpord,
      hkey, if_neg, if_pos]
  · intro h S kd arn pl sq hseq hpl hpid hpord hamt hkey hty hh
    simp (disch := omega) [Consumers.paymentsStep, hseq, hpl, hpid, hpord,
      hkey, hty, hh, if_neg, if_pos]
  · intro h S records
    exact Consumers.paymentsGo_subset h records ⟨0, [], S, []⟩

/-- Witness for C8: a record whose key is already processed is skipped, and
a fresh record's key is added after dispatch. -/
theorem claim_C8_idempotent_duplicate_skipped_witness :
    Consumers.paymentsStep (fun _ => none) ["p1:captured"]
        ⟨some ⟨some "s1", some "k", some (.ok ⟨some "p1", some "o1", none,
          some "captured", some 7, none, none⟩), none⟩, none⟩ =
      (.success, ["p1:captured"], []) ∧
    Consumers.paymentsStep (fun _ => none) []
        ⟨some ⟨some "s1", some "k", some (.ok ⟨some "p1", some "o1", none,
          some "captured", some 7, none, none⟩), none⟩, none⟩ =
      (.success, ["p1:captured"], [("p1", some "captured")]) :=
  ⟨claim_C8_idempotent_duplicate_skipped.1 (fun _ => none) ["p1:captured"]
      ⟨some "s1", some "k", some (.ok ⟨some "p1", some "o1", none,
        some "captured", some 7, none, none⟩), none⟩ none
      ⟨some "p1", some "o1", none, some "captured", some 7, none, none⟩ "s1"
      rfl rfl (by decide) (by decide) (by decide) (by decide),
    claim_C8_idempotent_duplicate_skipped.2.1 (fun _ => none) []
      ⟨some "s1", some "k", some (.ok ⟨some "p1", some "o1", none,
        some "captured", some 7, none, none⟩), none⟩ none
      ⟨some "p1", some "o1", none, some "captured", some 7, none, none⟩ "s1"
      rfl rfl (by decide) (by decide) (by decide) (by decide) (by decide)
      rfl⟩

/-- C10: a payment record's idempotency key is recorded only after its
per-type handler returns normally: every failing record (whatever the
failure) leaves the processed set exactly as it was, and in particular a
valid record whose dispatched handler raises is recorded as a failure with
the set unchanged and the handler actually invoked — so a redelivered copy
is dispatched again rather than skipped. -/
theorem claim_C10_mark_only_after_success :
    (∀ (h : Consumers.PaymentHandlers) (S : List String)
        (r : Consumers.StreamRecord Consumers.PaymentPayload)
        (f : Consumers.FailEntry),
      (Consumers.paymentsStep h S r).1 = .failed f →
      (Consumers.paymentsStep h S r).2.1 = S) ∧
    (∀ (h : Consumers.PaymentHandlers) (S : List String)
        (kd : Consumers.KinesisEnv Consumers.PaymentPayload)
        (arn : Option String) (pl : Consumers.PaymentPayload) (sq : String)
        (exc : Consumers.HandlerExc),
      kd.sequenceNumber = some sq →
      kd.payload = some (.ok pl) →
      Consumers.pyTruthyStr pl.payment_id = true →
      Consumers.pyTruthyStr pl.order_id = true →
      0 < pl.amount.getD 0 →
      Consumers._generate_idempotency_key
          (Consumers.pyStrOpt pl.payment_id) pl.type ∉ S →
      pl.type.any (fun t => t ∈ Consumers.paymentTypes) = true →
      h pl = some exc →
      (∃ f, (Consumers.paymentsStep h S ⟨some kd, arn⟩).1 = .failed f) ∧
      (Consumers.paymentsStep h S ⟨some kd, arn⟩).2.1 = S ∧
      (Consumers.paymentsStep h S ⟨some kd, arn⟩).2.2 =
        [(Consumers.pyStrOpt pl.payment_id, pl.type)]) := by
  constructor
  · intro h S r f hf
    unfold Consumers.paymentsStep at hf ⊢
    rcases r with ⟨k, arn⟩
    rcases k with _ | kd
    · simp
    rcases kd with ⟨sq, pk, pay, at_⟩
    rcases sq with _ | sq
    · simp
    rcases pay with _ | pay
    · simp
    rcases pay with e | pl
    · rcases e <;> simp
    simp only at hf ⊢
    split
    · simp
    split
    · simp
    split
    · simp
    split
    · simp_all
    split
    · split
      · simp_all
      · simp
      · simp
    · simp
  · intro h S kd arn pl sq exc hseq hpl hpid hpord hamt hkey hty hh
    rcases exc with _ | _ <;>
      simp (disch := omega) [Consumers.paymentsStep, hseq, hpl, hpid, hpord,
        hkey, hty, hh, if_neg, if_pos]

/-- Witness for C10: a handler that raises on a concrete valid record. -/
theorem claim_C10_mark_only_after_success_witness :
    ((Consumers.paymentsStep (fun _ => some .otherExc) []
        ⟨some ⟨some "s1", some "k", some (.ok ⟨some "p1", some "o1", none,
          some "refunded", some 9, none, none⟩), none⟩, none⟩).1 =
        .failed ⟨some "s1", .otherError⟩ →
      (Consumers.paymentsStep (fun _ => some .otherExc) []
        ⟨some ⟨some "s1", some "k", some (.ok ⟨some "p1", some "o1", none,
          some "refunded", some 9, none, none⟩), none⟩, none⟩).2.1 = []) ∧
    ((∃ f, (Consumers.paymentsStep (fun _ => some .otherExc) []
        ⟨some ⟨some "s1", some "k", some (.ok ⟨some "p1", some "o1", none,
          some "refunded", some 9, none, none⟩), none⟩, none⟩).1 =
        .failed f) ∧
      (Consumers.paymentsStep (fun _ => some .otherExc) []
        ⟨some ⟨some "s1", some "k", some (.ok ⟨some "p1", some "o1", none,
          some "refunded", some 9, none, none⟩), none⟩, none⟩).2.1 = [] ∧
      (Consumers.paymentsStep (fun _ => some .otherExc) []
        ⟨some ⟨some "s1", some "k", some (.ok ⟨some "p1", some "o1", none,
          some "refunded", some 9, none, none⟩), none⟩, none⟩).2.2 =
        [("p1", some "refunded")]) :=
  ⟨claim_C10_mark_only_after_success.1 (fun _ => some .otherExc) [] _ _,
    claim_C10_mark_only_after_success.2 (fun _ => some .otherExc) []
      ⟨some "s1", some "k", some (.ok ⟨some "p1", some "o1", none,
        some "refunded", some 9, none, none⟩), none⟩ none
      ⟨some "p1", some "o1", none, some "refunded", some 9, none, none⟩ "s1"
      .otherExc rfl rfl (by decide) (by decide) (by decide) (by decide)
      (by decide) rfl⟩

namespace InfraGen

/-- The part of a YAML consumer config that `identify_primary_consumers`
reads: the optional `streams` list and the optional singular `stream` key
(`consumer_cfg.get('streams', [consumer_cfg.get('stream')])`). -/
structure ConsumerCfg where
  streams : Option (List String)
  stream : Option String
deriving DecidableEq

/-- `consumer_cfg.get('streams', [consumer_cfg.get('stream')])`: the
declared source streams, where a missing singular `stream` key yields the
one-element list `[None]`. -/
def streamList (c : ConsumerCfg) : List (Option String) :=
  match c.streams with
  | some l => l.map some
  | none => [c.stream]

/-- Association-list lookup keyed by stream or consumer name, standing in
for the Python dict accesses on `primary`/`additional` (insertion
ordered). -/
def alookup {α : Type} : List (String × α) → String → Option α
  | [], _ => none
  | e :: rest, S => if e.1 = S then some e.2 else alookup rest S

/-- The consumer-classification loop shared verbatim by
`kinesis-starter-infra/generate.py` and `kinesis-infra/generate.py`
(their `identify_primary_consumers` bodies are identical):  a multi-stream
consumer is additional; a single-stream consumer named
`"{stream}_processor"` whose stream exists and is unclaimed becomes that
stream's primary; everything else is additional.  `streams` is the list of
keys of the YAML `streams` map (only key membership is consulted).
`.error ()` models the `IndexError` from `stream_list[0]` on an empty
declared-streams list. -/
def identifyGo (streams : List String) :
    List (String × ConsumerCfg) → List (String × ConsumerCfg) →
    List (String × ConsumerCfg) →
    Except Unit (List (String × ConsumerCfg) × List (String × ConsumerCfg))
  | [], prim, add => .ok (prim, add)
  | (name, cfg) :: rest, prim, add =>
    if (streamList cfg).length > 1 then
      identifyGo streams rest prim (add ++ [(name, cfg)])
    else
      match streamList cfg with
      | [] => .error ()
      | s0 :: _ =>
        match s0 with
        | none => identifyGo streams rest prim (add ++ [(name, cfg)])
        | some s =>
          if name = s ++ "_processor" ∧ s ∈ streams then
            match alookup prim s with
            | none => identifyGo streams rest (prim ++ [(s, cfg)]) add
            | some _ => identifyGo streams rest prim (add ++ [(name, cfg)])
          else identifyGo streams rest prim (add ++ [(name, cfg)])

/-- `identify_primary_consumers` of `kinesis-starter-infra/generate.py`:
returns the primary map (keyed by stream) and the additional map (keyed by
consumer name). -/
def identify_primary_consumers (streams : List String)
    (consumers : List (String × ConsumerCfg)) :
    Except Unit (List (String × ConsumerCfg) × List (String × ConsumerCfg)) :=
  identifyGo streams consumers [] []

/-- `identify_primary_consumers` of `kinesis-infra/generate.py` (the fixed
layout variant); its body is line-for-line the same classification. -/
def identify_primary_consumers_ki (streams : List String)
    (consumers : List (String × ConsumerCfg)) :
    Except Unit (List (String × ConsumerCfg) × List (String × ConsumerCfg)) :=
  identifyGo streams consumers [] []

/-- The claim's primary condition for stream `S`: the consumer declares
exactly the single source stream `S`, is named `"{S}_processor"`, and `S`
is a configured stream. -/
def isPrimaryForB (streams : List String) (S name : String)
    (cfg : ConsumerCfg) : Bool :=
  decide (streamList cfg = [some S] ∧ name = S ++ "_processor" ∧ S ∈ streams)

/-- A primary entry `(S, cfg)` re-labelled with the name of the consumer it
came from (`"{S}_processor"`). -/
def renameAsProcessor (e : String × ConsumerCfg) : String × ConsumerCfg :=
  (e.1 ++ "_processor", e.2)

/-- First-some choice on options. -/
def oOr {α : Type} (a b : Option α) : Option α :=
  match a with
  | some x => some x
  | none => b

theorem oOr_none {α : Type} (a : Option α) : oOr a none = a := by
  cases a <;> rfl

theorem alookup_append {α : Type} (l1 l2 : List (String × α)) (S : String) :
    alookup (l1 ++ l2) S = oOr (alookup l1 S) (alookup l2 S) := by
  induction l1 with
  | nil => simp [alookup, oOr]
  | cons e rest ih =>
    by_cases h : e.1 = S <;> simp [alookup, h, ih, oOr]

theorem perm_shuffle {α : Type} (P A R : List α) (x : α) :
    ((P ++ [x] ++ A) ++ R).Perm ((P ++ A) ++ (x :: R)) := by
  simp only [List.append_assoc, List.singleton_append]
  exact List.Perm.append_left P List.perm_middle.symm

/-- Accumulator-generalised characterisation of the classification loop:
it never fails on nonempty declared-stream lists, the final primary map
answers lookups by the first consumer satisfying the primary condition
(unless the accumulator already claimed the stream), and renaming the new
primary entries back to their consumer names recovers, up to permutation,
exactly the input consumers. -/
theorem identifyGo_spec (streams : List String) :
    ∀ (consumers prim add : List (String × ConsumerCfg)),
      (∀ nc ∈ consumers, streamList nc.2 ≠ []) →
      ∃ primF addF,
        identifyGo streams consumers prim add = .ok (primF, addF) ∧
        (∀ S, alookup primF S =
          oOr (alookup prim S)
            ((consumers.find? fun nc =>
                isPrimaryForB streams S nc.1 nc.2).map Prod.snd)) ∧
        (primF.map renameAsProcessor ++ addF).Perm
          ((prim.map renameAsProcessor ++ add) ++ consumers) := by
  intro consumers
  induction consumers with
  | nil =>
    intro prim add _
    exact ⟨prim, add, rfl, fun S => by simp [oOr_none], by simp⟩
  | cons nc rest ih =>
    rcases nc with ⟨name, cfg⟩
    intro prim add hne
    have hneHead : streamList cfg ≠ [] := hne (name, cfg) (by simp)
    have hneRest : ∀ nc ∈ rest, streamList nc.2 ≠ [] := by
      intro x hx; exact hne x (by simp [hx])
    by_cases hlen : (streamList cfg).length > 1
    · -- multi-stream consumer: always additional
      have hfalse : ∀ S, isPrimaryForB streams S name cfg = false := by
        intro S
        simp only [isPrimaryForB, decide_eq_false_iff_not]
        rintro ⟨h1, -, -⟩
        rw [h1] at hlen
        simp at hlen
      obtain ⟨primF, addF, heq, hlook, hperm⟩ :=
        ih prim (add ++ [(name, cfg)]) hneRest
      refine ⟨primF, addF, ?_, ?_, ?_⟩
      · simp [identifyGo, hlen, heq]
      · intro S
        rw [hlook S]
        simp [List.find?, hfalse S]
      · refine hperm.trans (List.Perm.of_eq ?_)
        simp [List.append_assoc]
    · -- at most one declared stream
      rcases hsl : streamList cfg with _ | ⟨s0, tl⟩
      · exact absurd hsl hneHead
      have htl : tl = [] := by
        rcases tl with _ | ⟨a, t⟩
        · rfl
        · exact absurd (by rw [hsl]; simp only [List.length_cons]; omega) hlen
      subst htl
      rcases s0 with _ | s
      · -- declared stream is None: additional
        have hfalse : ∀ S, isPrimaryForB streams S name cfg = false := by
          intro S
          simp only [isPrimaryForB, decide_eq_false_iff_not]
          rintro ⟨h1, -, -⟩
          rw [h1] at hsl
          simp at hsl
        obtain ⟨primF, addF, heq, hlook, hperm⟩ :=
          ih prim (add ++ [(name, cfg)]) hneRest
        refine ⟨primF, addF, ?_, ?_, ?_⟩
        · simp [identifyGo, hlen, hsl, heq]
        · intro S
          rw [hlook S]
          simp [List.find?, hfalse S]
        · refine hperm.trans (List.Perm.of_eq ?_)
          simp [List.append_assoc]
      · -- single declared stream s
        have hofs : ∀ S, S ≠ s → isPrimaryForB streams S name cfg = false := by
          intro S hS
          simp only [isPrimaryForB, decide_eq_false_iff_not]
          rintro ⟨h1, -, -⟩
          rw [hsl] at h1
          simp at h1
          exact hS h1.symm
        by_cases hcond : name = s ++ "_processor" ∧ s ∈ streams
        · rcases hclaim : alookup prim s with _ | x
          · -- new primary for s
            have hhead : isPrimaryForB streams s name cfg = true := by
              simp [isPrimaryForB, hsl, hcond.1, hcond.2]
            obtain ⟨primF, addF, heq, hlook, hperm⟩ :=
              ih (prim ++ [(s, cfg)]) add hneRest
            refine ⟨primF, addF, ?_, ?_, ?_⟩
            · simp [identifyGo, hlen, hsl, hcond, hclaim, heq]
            · intro S
              by_cases hS : S = s
              · subst hS
                rw [hlook S, alookup_append, hclaim]
                simp [List.find?, hhead, alookup, oOr]
              · have hsS : (s : String) ≠ S := fun h => hS h.symm
                rw [hlook S, alookup_append]
                have h1 : alookup [(s, cfg)] S = none := by
                  simp [alookup, hsS]
                rw [h1, oOr_none]
                simp [List.find?, hofs S hS]
            · refine hperm.trans ?_
              have hmap : (prim ++ [(s, cfg)]).map renameAsProcessor =
                  prim.map renameAsProcessor ++ [(name, cfg)] := by
                simp [renameAsProcessor, hcond.1]
            -- (P ++ [x] ++ A) ++ R permutes to (P ++ A) ++ (x :: R)
              rw [hmap]
              exact perm_shuffle (prim.map renameAsProcessor) add rest
                (name, cfg)
          · -- stream already claimed: additional
            obtain ⟨hname, hstr⟩ := hcond
            obtain ⟨primF, addF, heq, hlook, hperm⟩ :=
              ih prim (add ++ [(name, cfg)]) hneRest
            refine ⟨primF, addF, ?_, ?_, ?_⟩
            · subst hname
              simp [identifyGo, hlen, hsl, hstr, hclaim, heq]
            · intro S
              by_cases hS : S = s
              · subst hS
                rw [hlook S, hclaim]
                simp [oOr]
              · rw [hlook S]
                simp [List.find?, hofs S hS]
            · refine hperm.trans (List.Perm.of_eq ?_)
              simp [List.append_assoc]
        · -- name mismatch or unknown stream: additional
          have hfalse : ∀ S, isPrimaryForB streams S name cfg = false := by
            intro S
            simp only [isPrimaryForB, decide_eq_false_iff_not]
            rintro ⟨h1, h2, h3⟩
            rw [hsl] at h1
            simp at h1
            exact hcond ⟨h1 ▸ h2, h1 ▸ h3⟩
          obtain ⟨primF, addF, heq, hlook, hperm⟩ :=
            ih prim (add ++ [(name, cfg)]) hneRest
          refine ⟨primF, addF, ?_, ?_, ?_⟩
          · simp [identifyGo, hlen, hsl, hcond, heq]
          · intro S
            rw [hlook S]
            simp [List.find?, hfalse S]
          · refine hperm.trans (List.Perm.of_eq ?_)
            simp [List.append_assoc]

end InfraGen

/-- C9: for every streams map and consumers map (each consumer declaring at
least one source stream, per the config data model), both generators'
`identify_primary_consumers` return the same pair of maps in which: the
primary map answers stream `S` with the configuration of the first consumer
that declares exactly the single source stream `S`, is named
`"{S}_processor"` and targets a configured stream — so a second claimant of
an already-claimed stream is never primary — and relabelling each primary
entry back to its consumer name recovers, together with the additional map,
exactly the input consumers (each consumer lands in exactly one of the two
maps). -/
theorem claim_C9_consumer_classification (streams : List String)
    (consumers : List (String × InfraGen.ConsumerCfg))
    (hne : ∀ nc ∈ consumers, InfraGen.streamList nc.2 ≠ []) :
    ∃ prim add,
      InfraGen.identify_primary_consumers streams consumers = .ok (prim, add) ∧
      InfraGen.identify_primary_consumers_ki streams consumers =
        .ok (prim, add) ∧
      (∀ S, InfraGen.alookup prim S =
        (consumers.find? fun nc =>
            InfraGen.isPrimaryForB streams S nc.1 nc.2).map Prod.snd) ∧
      (prim.map InfraGen.renameAsProcessor ++ add).Perm consumers := by
  obtain ⟨prim, add, heq, hlook, hperm⟩ :=
    InfraGen.identifyGo_spec streams consumers [] [] hne
  refine ⟨prim, add, heq, heq, ?_, by simpa using hperm⟩
  intro S
  simpa [InfraGen.alookup, InfraGen.oOr] using hlook S

/-- Witness for C9: two streams, a primary claimant, a duplicate claimant
and a multi-stream consumer. -/
theorem claim_C9_consumer_classification_witness :
    ∃ prim add,
      InfraGen.identify_primary_consumers ["orders", "payments"]
          [("orders_processor", ⟨none, some "orders"⟩),
            ("orders_processor2", ⟨some ["orders"], none⟩),
            ("agg", ⟨some ["orders", "payments"], none⟩)] = .ok (prim, add) ∧
      InfraGen.identify_primary_consumers_ki ["orders", "payments"]
          [("orders_processor", ⟨none, some "orders"⟩),
            ("orders_processor2", ⟨some ["orders"], none⟩),
            ("agg", ⟨some ["orders", "payments"], none⟩)] = .ok (prim, add) ∧
      (∀ S, InfraGen.alookup prim S =
        (List.find? (fun nc =>
            InfraGen.isPrimaryForB ["orders", "payments"] S nc.1 nc.2)
          [("orders_processor", ⟨none, some "orders"⟩),
            ("orders_processor2", ⟨some ["orders"], none⟩),
            ("agg", ⟨some ["orders", "payments"], none⟩)]).map Prod.snd) ∧
      (prim.map InfraGen.renameAsProcessor ++ add).Perm
        [("orders_processor", ⟨none, some "orders"⟩),
          ("orders_processor2", ⟨some ["orders"], none⟩),
          ("agg", ⟨some ["orders", "payments"], none⟩)] :=
  claim_C9_consumer_classification ["orders", "payments"]
    [("orders_processor", ⟨none, some "orders"⟩),
      ("orders_processor2", ⟨some ["orders"], none⟩),
      ("agg", ⟨some ["orders", "payments"], none⟩)] (by decide)
